import Mathlib

/-!
Verification of the Booking Lifecycle & Incentive Engine of the solar-installation
backend in `src/server.ts`: the upline resolver (`getUplineChain`), the commission
distributor (`distributeCommissionForPurchase` and `upsertWalletAdd`), the due-day
computation (`calculateDueDays`), the staff and admin step-completion handlers, and
the amount guards of the two distribution endpoints.

Modelling conventions:
  - customer/step identifiers are `Nat`; the referral graph store is a function
    `Nat → Option Nat` giving each customer's `referredBy` pointer;
  - timestamps are `Int` milliseconds since the epoch (the timezone offset is taken
    as zero, so a calendar day is a block of 86400000 ms aligned at multiples);
  - JavaScript numbers in the commission arithmetic are modelled as exact rationals
    `ℚ`; where NaN/Infinity matter (the endpoint guards) a dedicated `JsNum` type
    carries the non-finite values;
  - the persistent store is passed and returned explicitly: a handler becomes a
    function from the relevant booking/wallet state to the updated state, and
    certificate issuance becomes a list of recorded trigger invocations plus an
    outcome parameter (`Option String`: the document handle on success).
-/

namespace Klord

/-- Milliseconds in one calendar day (`1000 * 60 * 60 * 24`). -/
def msPerDay : Int := 86400000

/-- JavaScript `Math.round` on an exact rational: floor of `q + 1/2`
(halves round toward positive infinity). -/
def jsRound (q : ℚ) : Int := ⌊q + 1 / 2⌋

/-- JavaScript `String.prototype.trim`: strip leading and trailing whitespace,
written structurally over the character list. -/
def jsTrim (s : String) : String :=
  ⟨((s.data.dropWhile Char.isWhitespace).reverse.dropWhile
    Char.isWhitespace).reverse⟩

/-! ## Upline resolver (`getUplineChain`) -/

/-- Loop body of `getUplineChain`: while the current node has a referrer and
fewer than `maxLevels` hops were taken, push `(referrer, steps + 1)` and move up.
`fuel` is `maxLevels - steps`; `stepsDone` is the number of hops already taken. -/
def uplineGo (g : Nat → Option Nat) : Nat → Nat → Nat → List (Nat × Nat)
  | _, _, 0 => []
  | current, stepsDone, fuel + 1 =>
    match g current with
    | none => []
    | some up => (up, stepsDone + 1) :: uplineGo g up (stepsDone + 1) fuel

/-- `getUplineChain(customerId, maxLevels = 3)` from `server.ts`: the list of
`(ancestorId, levelFromDownline)` pairs obtained by walking `referredBy`. -/
def getUplineChain (g : Nat → Option Nat) (customerId : Nat) (maxLevels : Nat) :
    List (Nat × Nat) :=
  uplineGo g customerId 0 maxLevels

/-- The k-th ancestor of a customer along `referredBy` (k = 0 is the customer
itself). Used to state chain-shape claims about `getUplineChain`. -/
def ancSeq (g : Nat → Option Nat) (c : Nat) : Nat → Option Nat
  | 0 => some c
  | k + 1 => (ancSeq g c k).bind g

/-- The referrer chain of customer `c` has length exactly `L`: the L-th ancestor
exists and has no referrer of its own. -/
def hasChainLen (g : Nat → Option Nat) (c : Nat) (L : Nat) : Prop :=
  (ancSeq g c L).isSome ∧ (ancSeq g c L).bind g = none

/-! ## Commission distributor -/

/-- The `MlSettings` singleton row: global payout cap percent and per-level
percent schedule. -/
structure MlSettings where
  maxPayoutPercent : ℚ
  level1Percent : ℚ
  level2Percent : ℚ
  level3Percent : ℚ
deriving Repr, DecidableEq

/-- Defaults applied when the settings row is created on first access
(`DEFAULT 4.0 / 2.0 / 1.0 / 1.0` in the Prisma schema). -/
def defaultMlSettings : MlSettings := ⟨4, 2, 1, 1⟩

/-- `const percents = [settings.level1Percent, settings.level2Percent, settings.level3Percent]`. -/
def percentsOf (s : MlSettings) : List ℚ :=
  [s.level1Percent, s.level2Percent, s.level3Percent]

/-- One entry of the `intended` array in `distributeCommissionForPurchase`. -/
structure Intended where
  uplineId : Nat
  levelFromDownline : Nat
  pct : ℚ
deriving Repr, DecidableEq

/-- `chain.map((u, idx) => ({uplineId: u.id, levelFromDownline: u.level, pct: percents[idx] ?? 0}))`,
written with an explicit running index. -/
def intendedAux (percents : List ℚ) : Nat → List (Nat × Nat) → List Intended
  | _, [] => []
  | idx, u :: rest => ⟨u.1, u.2, percents.getD idx 0⟩ :: intendedAux percents (idx + 1) rest

/-- The `intended` array of `distributeCommissionForPurchase`. -/
def intendedOf (percents : List ℚ) (chain : List (Nat × Nat)) : List Intended :=
  intendedAux percents 0 chain

/-- `intended.map(x => (x.pct / 100) * gross)`. -/
def rawAmounts (intended : List Intended) (gross : ℚ) : List ℚ :=
  intended.map fun x => x.pct / 100 * gross

/-- The cap-scaling step: `if (total > cap && total > 0) amounts = amounts.map(a => a * (cap / total))`. -/
def scaleAmounts (amounts : List ℚ) (cap : ℚ) : List ℚ :=
  let total := amounts.foldl (· + ·) 0
  if cap < total ∧ 0 < total then amounts.map (· * (cap / total)) else amounts

/-- An immutable `Commission` ledger row. -/
structure CommissionRow where
  customerId : Nat
  fromCustomerId : Nat
  levelFromDownline : Nat
  amount : ℚ
deriving Repr, DecidableEq

/-- `upsertWalletAdd(customerId, delta)`: additive credit, creating the wallet on
first need. The wallet store is a partial map from customer id to balance. -/
def upsertWalletAdd (w : Nat → Option ℚ) (customerId : Nat) (delta : ℚ) :
    Nat → Option ℚ :=
  fun x =>
    if x = customerId then
      match w customerId with
      | some bal => some (bal + delta)
      | none => some delta
    else w x

/-- The loop body of `distributeCommissionForPurchase`: skip non-positive amounts,
otherwise append a ledger row and credit the wallet. -/
def distStep (sourceId : Nat) (acc : List CommissionRow × (Nat → Option ℚ))
    (x : Intended × ℚ) : List CommissionRow × (Nat → Option ℚ) :=
  if x.2 ≤ 0 then acc
  else (acc.1 ++ [⟨x.1.uplineId, sourceId, x.1.levelFromDownline, x.2⟩],
        upsertWalletAdd acc.2 x.1.uplineId x.2)

/-- Outcome of one distribution call: the ledger rows written, the wallet store
after all credits, and the returned payload fields. -/
structure DistributeResult where
  rows : List CommissionRow
  wallets : Nat → Option ℚ
  created : Nat
  totalAmount : ℚ
  details : List (Nat × Nat × ℚ)

/-- `const cap = (settings.maxPayoutPercent / 100) * gross`. -/
def commissionCap (s : MlSettings) (gross : ℚ) : ℚ :=
  s.maxPayoutPercent / 100 * gross

/-- `const chain = await getUplineChain(sourceId, 3)`. -/
def commissionChain (g : Nat → Option Nat) (sourceId : Nat) : List (Nat × Nat) :=
  getUplineChain g sourceId 3

/-- The `intended` array computed by the distributor. -/
def commissionIntended (s : MlSettings) (g : Nat → Option Nat) (sourceId : Nat) :
    List Intended :=
  intendedOf (percentsOf s) (commissionChain g sourceId)

/-- The post-scaling `amounts` array computed by the distributor. -/
def commissionAmounts (s : MlSettings) (g : Nat → Option Nat) (sourceId : Nat)
    (gross : ℚ) : List ℚ :=
  scaleAmounts (rawAmounts (commissionIntended s g sourceId) gross)
    (commissionCap s gross)

/-- `distributeCommissionForPurchase(sourceId, gross)` from `server.ts`, with the
settings row, referral graph and initial wallet store passed explicitly. -/
def distributeCommissionForPurchase (s : MlSettings) (g : Nat → Option Nat)
    (w0 : Nat → Option ℚ) (sourceId : Nat) (gross : ℚ) : DistributeResult :=
  let intended := commissionIntended s g sourceId
  let amounts := commissionAmounts s g sourceId gross
  let rw := (intended.zip amounts).foldl (distStep sourceId) ([], w0)
  { rows := rw.1
    wallets := rw.2
    created := rw.1.length
    totalAmount := amounts.foldl (· + ·) 0
    details := rw.1.map fun r => (r.customerId, r.levelFromDownline, r.amount) }

/-! ## Endpoint amount guards -/

/-- A JavaScript number as seen by the endpoint guards: NaN, the two infinities,
or a finite value. -/
inductive JsNum
  | nan
  | posInf
  | negInf
  | num (q : ℚ)
deriving Repr, DecidableEq

/-- JavaScript falsiness of a number (`!gross`): NaN and zero are falsy. -/
def JsNum.isFalsy : JsNum → Bool
  | nan => true
  | posInf => false
  | negInf => false
  | num q => decide (q = 0)

/-- JavaScript `gross <= 0`: false for NaN, false for +Infinity, true for
-Infinity, and the rational comparison otherwise. -/
def JsNum.leZero : JsNum → Bool
  | nan => false
  | posInf => false
  | negInf => true
  | num q => decide (q ≤ 0)

/-- JavaScript `Number.isFinite`. -/
def JsNum.isFinite : JsNum → Bool
  | num _ => true
  | _ => false

/-- The guard of `POST /api/referrals/distribute`:
`if (!gross || gross <= 0) return 400` — `true` means the request is rejected
before any distribution work. -/
def customerDistributeRejects (gross : JsNum) : Bool :=
  gross.isFalsy || gross.leZero

/-- The guard of `POST /api/admin/referrals/distribute-for-booking`:
`if (!Number.isFinite(gross) || gross <= 0) return 400`. -/
def adminDistributeRejects (gross : JsNum) : Bool :=
  !gross.isFinite || gross.leZero

/-! ## Step workflow engine -/

/-- A `LeadStep` row: one step of a booking's ordered workflow. -/
structure LeadStep where
  id : Nat
  name : String
  order : Nat
  completed : Bool
  completedAt : Option Int
  completionNotes : Option String
  dueDays : Int
deriving Repr, DecidableEq

/-- The fields of a `Booking` row touched by the step handlers. -/
structure Booking where
  id : Nat
  assignedStaffId : Option Nat
  createdAt : Int
  percent : Int
  certificateUrl : Option String
  certificateGeneratedAt : Option Int
  steps : List LeadStep
deriving Repr, DecidableEq

/-- `new Date(t.getFullYear(), t.getMonth(), t.getDate())`: the midnight opening
the calendar day of `t` (timezone offset zero). -/
def startOfDay (t : Int) : Int := t.fdiv msPerDay * msPerDay

/-- `Math.floor((today.getTime() - startDay.getTime()) / (1000*60*60*24))` where
`today` and `startDay` are the midnights of `now` and of the clock start. -/
def calendarDaysBetween (startDate now : Int) : Int :=
  (startOfDay now - startOfDay startDate).fdiv msPerDay

/-- The clock start of the step at position `i` of the order-sorted list:
the booking's creation time for the first step, the predecessor's `completedAt`
when the predecessor is completed and has one, and none otherwise
(the step is still pending). -/
def clockStartOf (steps : List LeadStep) (bookingCreatedAt : Int) (i : Nat) :
    Option Int :=
  if i = 0 then some bookingCreatedAt
  else
    match steps.get? (i - 1) with
    | none => none
    | some prev =>
      if prev.completed && prev.completedAt.isSome then prev.completedAt else none

/-- The `dueDays` value `calculateDueDays` assigns to the step at position `i`:
0 when completed, 0 when pending, and `Math.min(Math.max(calendarDays, 1), 5)`
when active. -/
def dueDaysAt (steps : List LeadStep) (bookingCreatedAt now : Int) (i : Nat)
    (st : LeadStep) : Int :=
  if st.completed then 0
  else
    match clockStartOf steps bookingCreatedAt i with
    | none => 0
    | some s => min (max (calendarDaysBetween s now) 1) 5

/-- The indexed map of `calculateDueDays` over the sorted list. -/
def calculateDueDaysAux (steps : List LeadStep) (createdAt now : Int) :
    Nat → List LeadStep → List LeadStep
  | _, [] => []
  | i, st :: rest =>
    { st with dueDays := dueDaysAt steps createdAt now i st } ::
      calculateDueDaysAux steps createdAt now (i + 1) rest

/-- `calculateDueDays(steps, bookingCreatedAt)` from `server.ts`, on the
order-sorted step list, with `new Date()` passed explicitly as `now`. -/
def calculateDueDays (steps : List LeadStep) (bookingCreatedAt now : Int) :
    List LeadStep :=
  calculateDueDaysAux steps bookingCreatedAt now 0 steps

/-- Update the step with the given id in place, leaving every other step as is. -/
def updateStepIn (steps : List LeadStep) (stepId : Nat) (f : LeadStep → LeadStep) :
    List LeadStep :=
  steps.map fun s => if s.id = stepId then f s else s

/-- A recorded invocation of the Certificate Trigger, carrying the install date
passed to it (the raw timestamp the formatted string is built from). -/
structure CertCall where
  installDate : Int
deriving Repr, DecidableEq

/-- Failure modes of `POST /api/staff/steps/:stepId/complete`. -/
inductive StaffErr
  | notesRequired
  | stepNotFound
  | notAssigned
  | alreadyCompleted
deriving Repr, DecidableEq

/-- `POST /api/staff/steps/:stepId/complete` from `server.ts`, restricted to the
booking owning the step. Returns the updated booking and the (empty) list of
Certificate Trigger invocations this handler performs. -/
def staffCompleteStep (b : Booking) (staffId : Nat) (stepId : Nat) (notes : String)
    (now : Int) : Except StaffErr (Booking × List CertCall) :=
  if jsTrim notes = "" then .error .notesRequired
  else
    match b.steps.find? (fun s => s.id = stepId) with
    | none => .error .stepNotFound
    | some step =>
      if b.assignedStaffId ≠ some staffId then .error .notAssigned
      else if step.completed then .error .alreadyCompleted
      else
        let steps1 := updateStepIn b.steps stepId fun s =>
          { s with completed := true, completedAt := some now,
                   completionNotes := some (jsTrim notes) }
        let completedSteps := (steps1.filter (·.completed)).length
        let totalSteps := steps1.length
        let newPercent := jsRound ((completedSteps : ℚ) / (totalSteps : ℚ) * 100)
        .ok ({ b with steps := steps1, percent := newPercent }, [])

/-- Failure mode of `PATCH /api/admin/leads/:id/steps/:stepId`. -/
inductive AdminErr
  | stepNotFound
deriving Repr, DecidableEq

/-- The non-certificate steps of a list: `steps.filter(s => s.name !== 'certificate')`. -/
def nonCertOf (steps : List LeadStep) : List LeadStep :=
  steps.filter fun s => s.name ≠ "certificate"

/-- The step list right after the admin handler marks the target step complete
(the `completedFlag = true` instance of its update). -/
def markCompleted (steps : List LeadStep) (stepId : Nat) (now : Int) :
    List LeadStep :=
  updateStepIn steps stepId fun s =>
    { s with completed := true, completedAt := some now, dueDays := 0 }

/-- `map(completedAt).filter(nonNull).sort(ascending).pop()`: the latest
`completedAt` among the given steps. -/
def latestCompletedAt (steps : List LeadStep) : Option Int :=
  (steps.filterMap (·.completedAt)).foldl
    (fun acc t =>
      match acc with
      | none => some t
      | some a => some (max a t))
    none

/-- `PATCH /api/admin/leads/:id/steps/:stepId` from `server.ts`: set the step's
completion flag, activate the next incomplete step, and when every
non-certificate step is complete and no certificate exists, invoke the
Certificate Trigger. `certOutcome` is the trigger's result: `some url` when
`generateCertificatePDF` returns a public url, `none` when it throws. -/
def adminPatchStep (b : Booking) (stepId : Nat) (completedFlag : Bool) (now : Int)
    (certOutcome : Option String) : Except AdminErr (Booking × List CertCall) :=
  match b.steps.find? (fun s => s.id = stepId) with
  | none => .error .stepNotFound
  | some step =>
    let steps1 := updateStepIn b.steps stepId fun s =>
      { s with completed := completedFlag,
               completedAt := if completedFlag then some now else none,
               dueDays := if completedFlag then 0 else step.dueDays }
    let b1 := { b with steps := steps1 }
    let b2 :=
      if completedFlag then
        match b1.steps.find? (fun s => !s.completed && s.id != stepId) with
        | some nxt =>
          { b1 with steps := updateStepIn b1.steps nxt.id fun s => { s with dueDays := 1 } }
        | none => b1
      else b1
    if completedFlag then
      let nonCert := nonCertOf b2.steps
      if 0 < nonCert.length ∧ nonCert.all (·.completed) ∧ b2.certificateUrl = none then
        let installDate := (latestCompletedAt nonCert).getD now
        match certOutcome with
        | some url =>
          let b3 := { b2 with certificateUrl := some url,
                              certificateGeneratedAt := some now }
          let b4 :=
            match b3.steps.find? (fun s => s.name = "certificate") with
            | some cs =>
              if cs.completed then b3
              else { b3 with steps := updateStepIn b3.steps cs.id fun s =>
                       { s with completed := true, completedAt := some now } }
            | none => b3
          .ok (b4, [⟨installDate⟩])
        | none => .ok (b2, [⟨installDate⟩])
      else .ok (b2, [])
    else .ok (b2, [])

/-- The next-step activation stage of the admin handler: set `dueDays := 1` on
the first incomplete step other than the just-completed one. -/
def adminActivateNext (b1 : Booking) (stepId : Nat) : Booking :=
  match b1.steps.find? (fun s => !s.completed && s.id != stepId) with
  | some nxt =>
    { b1 with steps := updateStepIn b1.steps nxt.id fun s => { s with dueDays := 1 } }
  | none => b1

/-- The certificate cascade stage of the admin handler, returning the final
booking state and the Certificate Trigger invocations performed. -/
def adminCascade (b2 : Booking) (now : Int) (certOutcome : Option String) :
    Booking × List CertCall :=
  let nonCert := nonCertOf b2.steps
  if 0 < nonCert.length ∧ nonCert.all (·.completed) ∧ b2.certificateUrl = none then
    let installDate := (latestCompletedAt nonCert).getD now
    match certOutcome with
    | some url =>
      let b3 := { b2 with certificateUrl := some url,
                          certificateGeneratedAt := some now }
      let b4 :=
        match b3.steps.find? (fun s => s.name = "certificate") with
        | some cs =>
          if cs.completed then b3
          else { b3 with steps := updateStepIn b3.steps cs.id fun s =>
                   { s with completed := true, completedAt := some now } }
        | none => b3
      (b4, [⟨installDate⟩])
    | none => (b2, [⟨installDate⟩])
  else (b2, [])

/-- The percent self-heal of `GET /api/admin/leads/:id`:
`Math.min(Math.round(completedCount / 12 * 100), 100)` with the fixed workflow
size 12 as denominator. -/
def selfHealPercent (steps : List LeadStep) : Int :=
  min (jsRound (((steps.filter (·.completed)).length : ℚ) / 12 * 100)) 100

/-! ## Concrete instances used to exercise the model -/

/-- A single not-yet-completed first step, used to exercise the due-day
computation. -/
def stepMeeting : LeadStep :=
  { id := 1, name := "meeting", order := 1, completed := false,
    completedAt := none, completionNotes := none, dueDays := 0 }

/-- A booking with a single materialized (incomplete) step, assigned to staff 7:
completing that one step through the staff route drives the percent to 100. -/
def bookingOneStep : Booking :=
  { id := 10, assignedStaffId := some 7, createdAt := 0, percent := 0,
    certificateUrl := none, certificateGeneratedAt := none,
    steps := [stepMeeting] }

/-- The step of `bookingOneStep` after its staff completion at t = 5. -/
def stepMeetingDoneAt5 : LeadStep :=
  { id := 1, name := "meeting", order := 1, completed := true,
    completedAt := some 5, completionNotes := some "done", dueDays := 0 }

/-- The state of `bookingOneStep` after the staff completion of its only step:
the percent reads 100 because the denominator is the materialized step count. -/
def bookingOneStepDone : Booking :=
  { id := 10, assignedStaffId := some 7, createdAt := 0,
    percent := jsRound (((1 : Nat) : ℚ) / ((1 : Nat) : ℚ) * 100),
    certificateUrl := none, certificateGeneratedAt := none,
    steps := [stepMeetingDoneAt5] }

/-- A booking whose only step is already completed (at t = 100) and whose
certificate already exists, used to exercise a repeated completion through the
admin route. -/
def stepMeetingDone : LeadStep :=
  { id := 1, name := "meeting", order := 1, completed := true,
    completedAt := some 100, completionNotes := some "done", dueDays := 0 }

def bookingDone : Booking :=
  { id := 11, assignedStaffId := some 7, createdAt := 0, percent := 8,
    certificateUrl := some "cert", certificateGeneratedAt := some 150,
    steps := [stepMeetingDone] }

/-- The step of `bookingDone` after the admin route re-completes it at t = 200:
`completedAt` is overwritten with the new time. -/
def stepMeetingRedone : LeadStep :=
  { id := 1, name := "meeting", order := 1, completed := true,
    completedAt := some 200, completionNotes := some "done", dueDays := 0 }

/-- The state of `bookingDone` after the admin route re-completes its already
completed step at t = 200. -/
def bookingDoneRepatched : Booking :=
  { id := 11, assignedStaffId := some 7, createdAt := 0, percent := 8,
    certificateUrl := some "cert", certificateGeneratedAt := some 150,
    steps := [stepMeetingRedone] }

/-- A booking one completion away from the certificate cascade: the lone
non-certificate step is incomplete and the dedicated certificate step is
pending. -/
def stepCert : LeadStep :=
  { id := 2, name := "certificate", order := 2, completed := false,
    completedAt := none, completionNotes := none, dueDays := 0 }

def bookingAlmostDone : Booking :=
  { id := 12, assignedStaffId := some 7, createdAt := 0, percent := 0,
    certificateUrl := none, certificateGeneratedAt := none,
    steps := [stepMeeting, stepCert] }

/-- The meeting step of `bookingAlmostDone` once the admin completes it at
t = 200. -/
def stepMeetingDoneAt200 : LeadStep :=
  { id := 1, name := "meeting", order := 1, completed := true,
    completedAt := some 200, completionNotes := none, dueDays := 0 }

/-- The certificate step after the successful cascade: activated (dueDays 1 via
next-step activation) and then auto-completed at t = 200. -/
def stepCertDone : LeadStep :=
  { id := 2, name := "certificate", order := 2, completed := true,
    completedAt := some 200, completionNotes := none, dueDays := 1 }

/-- `bookingAlmostDone` after the admin completes its last substantive step at
t = 200 and the Certificate Trigger succeeds with handle "url". -/
def bookingCertified : Booking :=
  { id := 12, assignedStaffId := some 7, createdAt := 0, percent := 0,
    certificateUrl := some "url", certificateGeneratedAt := some 200,
    steps := [stepMeetingDoneAt200, stepCertDone] }

/-- A malformed two-customer referral graph with a cycle: 0 and 1 refer each
other. -/
def cycleGraph : Nat → Option Nat
  | 0 => some 1
  | 1 => some 0
  | _ => none

/-- An acyclic referral chain of length 2: customer 0 was referred by 1, who was
referred by 2, who has no referrer. -/
def chainGraph2 : Nat → Option Nat
  | 0 => some 1
  | 1 => some 2
  | _ => none

end Klord

namespace Klord

/-! ## Theorems -/

/-- Helper: the first ancestor is the direct referrer. -/
theorem ancSeq_one (g : Nat → Option Nat) (c : Nat) : ancSeq g c 1 = g c := by
  simp [ancSeq]

/-- Helper: if the n-th ancestor exists, so does the m-th for every m ≤ n. -/
theorem ancSeq_isSome_of_le (g : Nat → Option Nat) (c : Nat) {m n : Nat}
    (h : m ≤ n) (hs : (ancSeq g c n).isSome) : (ancSeq g c m).isSome := by
  induction n with
  | zero => simpa [Nat.le_zero.mp h] using hs
  | succ k ih =>
    rcases Nat.lt_or_ge m (k + 1) with hlt | hge
    · refine ih (Nat.lt_succ_iff.mp hlt) ?_
      rcases hk : ancSeq g c k with _ | a
      · simp [ancSeq, hk] at hs
      · simp [hk]
    · have : m = k + 1 := le_antisymm h hge
      simpa [this] using hs

/-- Helper: the `intended` array read positionally, with the running index made
explicit. -/
theorem intendedAux_get? (percents : List ℚ) :
    ∀ (chain : List (Nat × Nat)) (k i : Nat),
      (intendedAux percents k chain).get? i =
        (chain.get? i).map fun u => ⟨u.1, u.2, percents.getD (k + i) 0⟩ := by
  intro chain
  induction chain with
  | nil => intro k i; simp [intendedAux]
  | cons u rest ih =>
    intro k i
    cases i with
    | zero => simp [intendedAux]
    | succ j =>
      have h := ih (k + 1) j
      have e : k + 1 + j = k + (j + 1) := by omega
      simpa [intendedAux, e] using h

/-- Helper: `intendedOf` read positionally. -/
theorem intendedOf_get? (percents : List ℚ) (chain : List (Nat × Nat)) (i : Nat) :
    (intendedOf percents chain).get? i =
      (chain.get? i).map fun u => ⟨u.1, u.2, percents.getD i 0⟩ := by
  simpa using intendedAux_get? percents chain 0 i

/-- Helper: `intendedAux` preserves length. -/
theorem intendedAux_length (percents : List ℚ) :
    ∀ (chain : List (Nat × Nat)) (k : Nat),
      (intendedAux percents k chain).length = chain.length := by
  intro chain
  induction chain with
  | nil => intro k; simp [intendedAux]
  | cons u rest ih => intro k; simp [intendedAux, ih]

/-- Helper: the depth recorded at position `i` of the upline walk started after
`k` hops is `k + i + 1`. -/
theorem uplineGo_snd (g : Nat → Option Nat) :
    ∀ (fuel : Nat) (cur k i : Nat) (pr : Nat × Nat),
      (uplineGo g cur k fuel).get? i = some pr → pr.2 = k + i + 1 := by
  intro fuel
  induction fuel with
  | zero => intro cur k i pr h; simp [uplineGo] at h
  | succ n ih =>
    intro cur k i pr h
    rcases hg : g cur with _ | up
    · simp [uplineGo, hg] at h
    · simp only [uplineGo, hg] at h
      cases i with
      | zero =>
        simp at h
        subst h
        simp
      | succ j =>
        have := ih up (k + 1) j pr (by simpa using h)
        omega

/-- Helper: a fold with `+` over rationals starting at 0 is the list sum. -/
theorem foldl_add_eq_sum (l : List ℚ) : l.foldl (· + ·) 0 = l.sum :=
  (List.sum_eq_foldl (l := l)).symm

/-- Helper: when the raw total does not exceed the cap, the scaling step is the
identity. -/
theorem scaleAmounts_of_le (l : List ℚ) (cap : ℚ) (h : l.sum ≤ cap) :
    scaleAmounts l cap = l := by
  simp only [scaleAmounts, foldl_add_eq_sum]
  exact if_neg fun hc => (not_lt.mpr h) hc.1

/-- Helper: when the raw total exceeds the cap (and is positive), every amount
is multiplied by `cap / total`. -/
theorem scaleAmounts_of_gt (l : List ℚ) (cap : ℚ) (h1 : cap < l.sum)
    (h2 : 0 < l.sum) : scaleAmounts l cap = l.map (· * (cap / l.sum)) := by
  simp only [scaleAmounts, foldl_add_eq_sum]
  exact if_pos ⟨h1, h2⟩

/-- C1: for a positive gross amount, the resolved chain carries depths 1, 2, 3 in
order; the raw amount at depth d is `percent[d] / 100 * gross`; when the raw
total is within the cap the post-scaling amounts are the raw amounts with the
same total; and when the raw total exceeds the cap (and is positive) every
amount is the raw amount times `cap / total`, the distributed total is exactly
the cap, and any two recipients' amounts stand in the ratio of their nominal
percentages. -/
theorem C1_cap_scaling (s : MlSettings) (g : Nat → Option Nat) (sourceId : Nat)
    (gross : ℚ) (hg : 0 < gross) :
    (∀ i pr, (commissionChain g sourceId).get? i = some pr → pr.2 = i + 1) ∧
    (∀ i, i < (commissionChain g sourceId).length →
      (rawAmounts (commissionIntended s g sourceId) gross).get? i =
        some ((percentsOf s).getD i 0 / 100 * gross)) ∧
    ((rawAmounts (commissionIntended s g sourceId) gross).sum ≤
        commissionCap s gross →
      commissionAmounts s g sourceId gross =
        rawAmounts (commissionIntended s g sourceId) gross ∧
      (commissionAmounts s g sourceId gross).sum =
        (rawAmounts (commissionIntended s g sourceId) gross).sum) ∧
    (commissionCap s gross <
        (rawAmounts (commissionIntended s g sourceId) gross).sum →
      0 < (rawAmounts (commissionIntended s g sourceId) gross).sum →
      (∀ i, i < (commissionChain g sourceId).length →
        (commissionAmounts s g sourceId gross).get? i =
          some ((percentsOf s).getD i 0 / 100 * gross *
            (commissionCap s gross /
              (rawAmounts (commissionIntended s g sourceId) gross).sum))) ∧
      (commissionAmounts s g sourceId gross).sum = commissionCap s gross ∧
      (∀ i j ai aj,
        (commissionAmounts s g sourceId gross).get? i = some ai →
        (commissionAmounts s g sourceId gross).get? j = some aj →
        ai * (percentsOf s).getD j 0 = aj * (percentsOf s).getD i 0)) := by
  have hlenI : (commissionIntended s g sourceId).length =
      (commissionChain g sourceId).length := by
    simpa [commissionIntended, intendedOf] using
      intendedAux_length (percentsOf s) (commissionChain g sourceId) 0
  have hlenR : (rawAmounts (commissionIntended s g sourceId) gross).length =
      (commissionChain g sourceId).length := by
    simpa [rawAmounts] using hlenI
  have hrawget : ∀ i, i < (commissionChain g sourceId).length →
      (rawAmounts (commissionIntended s g sourceId) gross).get? i =
        some ((percentsOf s).getD i 0 / 100 * gross) := by
    intro i hi
    obtain ⟨u, hu⟩ : ∃ u, (commissionChain g sourceId).get? i = some u :=
      ⟨(commissionChain g sourceId).get ⟨i, hi⟩, List.get?_eq_get hi⟩
    have hint : (commissionIntended s g sourceId).get? i =
        some ⟨u.1, u.2, (percentsOf s).getD i 0⟩ := by
      rw [commissionIntended, intendedOf_get?, hu]
      rfl
    simp only [rawAmounts]
    rw [List.get?_map, hint]
    rfl
  refine ⟨?_, hrawget, ?_, ?_⟩
  · intro i pr h
    have := uplineGo_snd g 3 sourceId 0 i pr
      (by simpa [commissionChain, getUplineChain] using h)
    omega
  · intro hle
    have he : commissionAmounts s g sourceId gross =
        rawAmounts (commissionIntended s g sourceId) gross :=
      scaleAmounts_of_le _ _ hle
    exact ⟨he, by rw [he]⟩
  · intro hlt hpos
    have he : commissionAmounts s g sourceId gross =
        (rawAmounts (commissionIntended s g sourceId) gross).map
          (· * (commissionCap s gross /
            (rawAmounts (commissionIntended s g sourceId) gross).sum)) :=
      scaleAmounts_of_gt _ _ hlt hpos
    have hne : (rawAmounts (commissionIntended s g sourceId) gross).sum ≠ 0 :=
      ne_of_gt hpos
    refine ⟨?_, ?_, ?_⟩
    · intro i hi
      rw [he, List.get?_map, hrawget i hi]
      rfl
    · rw [he]
      have hmr := List.sum_map_mul_right
        (rawAmounts (commissionIntended s g sourceId) gross) id
        (commissionCap s gross /
          (rawAmounts (commissionIntended s g sourceId) gross).sum)
      simp only [id] at hmr
      rw [hmr]
      simp only [List.map_id]
      field_simp
    · intro i j ai aj hai haj
      rw [he, List.get?_map] at hai haj
      rcases hri : (rawAmounts (commissionIntended s g sourceId) gross).get? i with
        _ | a
      · rw [hri] at hai; simp at hai
      rcases hrj : (rawAmounts (commissionIntended s g sourceId) gross).get? j with
        _ | b
      · rw [hrj] at haj; simp at haj
      rw [hri] at hai
      rw [hrj] at haj
      have hiL : i < (commissionChain g sourceId).length := by
        have := (List.get?_eq_some.mp hri).1
        omega
      have hjL : j < (commissionChain g sourceId).length := by
        have := (List.get?_eq_some.mp hrj).1
        omega
      have ha : a = (percentsOf s).getD i 0 / 100 * gross := by
        have := hrawget i hiL
        rw [hri] at this
        exact Option.some.inj this
      have hb : b = (percentsOf s).getD j 0 / 100 * gross := by
        have := hrawget j hjL
        rw [hrj] at this
        exact Option.some.inj this
      have hai' : ai = a * (commissionCap s gross /
          (rawAmounts (commissionIntended s g sourceId) gross).sum) :=
        (Option.some.inj hai).symm
      have haj' : aj = b * (commissionCap s gross /
          (rawAmounts (commissionIntended s g sourceId) gross).sum) :=
        (Option.some.inj haj).symm
      rw [hai', haj', ha, hb]
      ring

/-- C1 exercised at the default settings, the concrete length-2 chain graph and
a gross amount of 100000. -/
theorem C1_cap_scaling_witness :
    (∀ i pr, (commissionChain chainGraph2 0).get? i = some pr → pr.2 = i + 1) ∧
    (∀ i, i < (commissionChain chainGraph2 0).length →
      (rawAmounts (commissionIntended defaultMlSettings chainGraph2 0) 100000).get? i =
        some ((percentsOf defaultMlSettings).getD i 0 / 100 * 100000)) ∧
    ((rawAmounts (commissionIntended defaultMlSettings chainGraph2 0) 100000).sum ≤
        commissionCap defaultMlSettings 100000 →
      commissionAmounts defaultMlSettings chainGraph2 0 100000 =
        rawAmounts (commissionIntended defaultMlSettings chainGraph2 0) 100000 ∧
      (commissionAmounts defaultMlSettings chainGraph2 0 100000).sum =
        (rawAmounts (commissionIntended defaultMlSettings chainGraph2 0) 100000).sum) ∧
    (commissionCap defaultMlSettings 100000 <
        (rawAmounts (commissionIntended defaultMlSettings chainGraph2 0) 100000).sum →
      0 < (rawAmounts (commissionIntended defaultMlSettings chainGraph2 0) 100000).sum →
      (∀ i, i < (commissionChain chainGraph2 0).length →
        (commissionAmounts defaultMlSettings chainGraph2 0 100000).get? i =
          some ((percentsOf defaultMlSettings).getD i 0 / 100 * 100000 *
            (commissionCap defaultMlSettings 100000 /
              (rawAmounts (commissionIntended defaultMlSettings chainGraph2 0) 100000).sum))) ∧
      (commissionAmounts defaultMlSettings chainGraph2 0 100000).sum =
        commissionCap defaultMlSettings 100000 ∧
      (∀ i j ai aj,
        (commissionAmounts defaultMlSettings chainGraph2 0 100000).get? i = some ai →
        (commissionAmounts defaultMlSettings chainGraph2 0 100000).get? j = some aj →
        ai * (percentsOf defaultMlSettings).getD j 0 =
          aj * (percentsOf defaultMlSettings).getD i 0)) :=
  C1_cap_scaling defaultMlSettings chainGraph2 0 100000 (by norm_num)

/-- Helper: the millisecond arithmetic of `calculateDueDays` counts exactly the
midnight boundaries between the two instants. -/
theorem calendarDaysBetween_eq (startDate now : Int) :
    calendarDaysBetween startDate now =
      now.fdiv msPerDay - startDate.fdiv msPerDay := by
  unfold calendarDaysBetween startOfDay
  have h : now.fdiv msPerDay * msPerDay - startDate.fdiv msPerDay * msPerDay =
      (now.fdiv msPerDay - startDate.fdiv msPerDay) * msPerDay := by ring
  rw [h, Int.mul_fdiv_cancel _ (by norm_num [msPerDay])]

/-- Helper: `calculateDueDaysAux` preserves length. -/
theorem calculateDueDaysAux_length (steps : List LeadStep) (createdAt now : Int) :
    ∀ (l : List LeadStep) (k : Nat),
      (calculateDueDaysAux steps createdAt now k l).length = l.length := by
  intro l
  induction l with
  | nil => intro k; simp [calculateDueDaysAux]
  | cons st rest ih => intro k; simp [calculateDueDaysAux, ih]

/-- Helper: `calculateDueDaysAux` read positionally. -/
theorem calculateDueDaysAux_get? (steps : List LeadStep) (createdAt now : Int) :
    ∀ (l : List LeadStep) (k i : Nat),
      (calculateDueDaysAux steps createdAt now k l).get? i =
        (l.get? i).map fun st =>
          { st with dueDays := dueDaysAt steps createdAt now (k + i) st } := by
  intro l
  induction l with
  | nil => intro k i; simp [calculateDueDaysAux]
  | cons st rest ih =>
    intro k i
    cases i with
    | zero => simp [calculateDueDaysAux]
    | succ j =>
      have h := ih (k + 1) j
      have e : k + 1 + j = k + (j + 1) := by omega
      simpa [calculateDueDaysAux, e] using h

/-- C3: the due-day computation is a pure function of the ordered step list, the
booking creation time and the current time. It preserves the list's length;
every completed step reads 0; every step whose clock has not started (first
step excluded, predecessor not completed) reads 0; every active step reads
`clamp(d, 1, 5)` where `d` is the number of midnight boundaries between the
step's clock start and now (so a step started at 11pm read after the next
midnight counts 1); and every reported value lies in {0} ∪ [1, 5]. -/
theorem C3_due_days (steps : List LeadStep) (createdAt now : Int) (i : Nat)
    (hi : i < steps.length) :
    (calculateDueDays steps createdAt now).length = steps.length ∧
    ∃ st', (calculateDueDays steps createdAt now).get? i = some st' ∧
      ((steps.get ⟨i, hi⟩).completed = true → st'.dueDays = 0) ∧
      (∀ prev, 0 < i → steps.get? (i - 1) = some prev →
        prev.completed = false → st'.dueDays = 0) ∧
      (clockStartOf steps createdAt i = none → st'.dueDays = 0) ∧
      ((steps.get ⟨i, hi⟩).completed = false →
        ∀ start, clockStartOf steps createdAt i = some start →
          st'.dueDays =
            min (max (now.fdiv msPerDay - start.fdiv msPerDay) 1) 5) ∧
      (st'.dueDays = 0 ∨ (1 ≤ st'.dueDays ∧ st'.dueDays ≤ 5)) := by
  have hlen : (calculateDueDays steps createdAt now).length = steps.length :=
    calculateDueDaysAux_length steps createdAt now steps 0
  have hget : (calculateDueDays steps createdAt now).get? i =
      (steps.get? i).map fun st =>
        { st with dueDays := dueDaysAt steps createdAt now i st } := by
    simpa using calculateDueDaysAux_get? steps createdAt now steps 0 i
  have hsg : steps.get? i = some (steps.get ⟨i, hi⟩) := List.get?_eq_get hi
  refine ⟨hlen, { (steps.get ⟨i, hi⟩) with
    dueDays := dueDaysAt steps createdAt now i (steps.get ⟨i, hi⟩) }, ?_, ?_, ?_, ?_, ?_, ?_⟩
  · rw [hget, hsg]
    rfl
  · intro hc
    simp only [List.get_eq_getElem] at hc
    show dueDaysAt steps createdAt now i (steps.get ⟨i, hi⟩) = 0
    simp [dueDaysAt, hc]
  · intro prev hpos hprev hpc
    have hcs : clockStartOf steps createdAt i = none := by
      unfold clockStartOf
      rw [if_neg (by omega), hprev]
      simp [hpc]
    show dueDaysAt steps createdAt now i (steps.get ⟨i, hi⟩) = 0
    simp [dueDaysAt, hcs]
  · intro hcs
    show dueDaysAt steps createdAt now i (steps.get ⟨i, hi⟩) = 0
    simp [dueDaysAt, hcs]
  · intro hc start hcs
    simp only [List.get_eq_getElem] at hc
    show dueDaysAt steps createdAt now i (steps.get ⟨i, hi⟩) =
      min (max (now.fdiv msPerDay - start.fdiv msPerDay) 1) 5
    simp [dueDaysAt, hc, hcs, calendarDaysBetween_eq]
  · show dueDaysAt steps createdAt now i (steps.get ⟨i, hi⟩) = 0 ∨
      (1 ≤ dueDaysAt steps createdAt now i (steps.get ⟨i, hi⟩) ∧
        dueDaysAt steps createdAt now i (steps.get ⟨i, hi⟩) ≤ 5)
    by_cases hc : (steps.get ⟨i, hi⟩).completed
    all_goals simp only [List.get_eq_getElem] at hc
    · left
      simp [dueDaysAt, hc]
    · rcases hcs : clockStartOf steps createdAt i with _ | start
      · left
        simp [dueDaysAt, hcs]
      · right
        have he : dueDaysAt steps createdAt now i (steps.get ⟨i, hi⟩) =
            min (max (calendarDaysBetween start now) 1) 5 := by
          simp [dueDaysAt, hc, hcs]
        rw [he]
        constructor
        · exact le_min (le_max_right _ _) (by norm_num)
        · exact min_le_right _ _

/-- C3 exercised on the 11pm scenario: a booking created at 23:00 of day 0 with
one active step, read at 01:00 of day 1, reports dueDays = 1 (the clamp of one
crossed midnight boundary). -/
theorem C3_due_days_witness :
    (calculateDueDays [stepMeeting] 82800000 90000000).length =
      [stepMeeting].length ∧
    ∃ st', (calculateDueDays [stepMeeting] 82800000 90000000).get? 0 = some st' ∧
      (([stepMeeting].get ⟨0, Nat.one_pos⟩).completed = true → st'.dueDays = 0) ∧
      (∀ prev, 0 < 0 → [stepMeeting].get? (0 - 1) = some prev →
        prev.completed = false → st'.dueDays = 0) ∧
      (clockStartOf [stepMeeting] 82800000 0 = none → st'.dueDays = 0) ∧
      (([stepMeeting].get ⟨0, Nat.one_pos⟩).completed = false →
        ∀ start, clockStartOf [stepMeeting] 82800000 0 = some start →
          st'.dueDays =
            min (max ((90000000 : Int).fdiv msPerDay - start.fdiv msPerDay) 1) 5) ∧
      (st'.dueDays = 0 ∨ (1 ≤ st'.dueDays ∧ st'.dueDays ≤ 5)) :=
  C3_due_days [stepMeeting] 82800000 90000000 0 Nat.one_pos

/-- Helper: a zip-filter produces nothing when the predicate fails at every
aligned position. -/
theorem zip_filter_eq_nil (pred : Intended × ℚ → Bool) :
    ∀ (l1 : List Intended) (l2 : List ℚ),
      (∀ j x a, l1.get? j = some x → l2.get? j = some a → pred (x, a) = false) →
      (l1.zip l2).filter pred = [] := by
  intro l1
  induction l1 with
  | nil => intro l2 h; simp
  | cons x rest ih =>
    intro l2 h
    cases l2 with
    | nil => simp
    | cons a as =>
      have h0 : pred (x, a) = false := h 0 x a rfl rfl
      have ht := ih as fun j y b hy hb =>
        h (j + 1) y b (by simpa using hy) (by simpa using hb)
      simp [List.filter_cons, h0, ht]

/-- Helper: a zip-filter produces exactly the aligned pair at position `i` when
the predicate holds there and fails at every other position. -/
theorem zip_filter_eq_single (pred : Intended × ℚ → Bool) :
    ∀ (i : Nat) (l1 : List Intended) (l2 : List ℚ) (x : Intended) (a : ℚ),
      l1.get? i = some x → l2.get? i = some a → pred (x, a) = true →
      (∀ j y b, j ≠ i → l1.get? j = some y → l2.get? j = some b →
        pred (y, b) = false) →
      (l1.zip l2).filter pred = [(x, a)] := by
  intro i
  induction i with
  | zero =>
    intro l1 l2 x a h1 h2 hp hrest
    cases l1 with
    | nil => simp at h1
    | cons x0 r1 =>
      cases l2 with
      | nil => simp at h2
      | cons a0 r2 =>
        simp at h1 h2
        subst h1
        subst h2
        have ht : (r1.zip r2).filter pred = [] :=
          zip_filter_eq_nil pred r1 r2 fun j y b hy hb =>
            hrest (j + 1) y b (by omega) (by simpa using hy) (by simpa using hb)
        simp [List.filter_cons, hp, ht]
  | succ n ih =>
    intro l1 l2 x a h1 h2 hp hrest
    cases l1 with
    | nil => simp at h1
    | cons x0 r1 =>
      cases l2 with
      | nil => simp at h2
      | cons a0 r2 =>
        have h0 : pred (x0, a0) = false := hrest 0 x0 a0 (by omega) rfl rfl
        have ht := ih r1 r2 x a (by simpa using h1) (by simpa using h2) hp
          fun j y b hj hy hb =>
            hrest (j + 1) y b (by omega) (by simpa using hy) (by simpa using hb)
        simp [List.filter_cons, h0, ht]

/-- Helper: keeping the positive-amount pairs and projecting the amounts is the
same as filtering the amount array, when the two arrays are aligned. -/
theorem zip_filter_snd :
    ∀ (l1 : List Intended) (l2 : List ℚ), l1.length = l2.length →
      ((l1.zip l2).filter fun p => !decide (p.2 ≤ 0)).map Prod.snd =
        l2.filter fun a => !decide (a ≤ 0) := by
  intro l1
  induction l1 with
  | nil =>
    intro l2 h
    cases l2 with
    | nil => simp
    | cons a as => simp at h
  | cons x r1 ih =>
    intro l2 h
    cases l2 with
    | nil => simp at h
    | cons a r2 =>
      have ht := ih r2 (by simpa using h)
      by_cases ha : a ≤ 0
      · simp [List.filter_cons, ha, ht]
      · simp [List.filter_cons, ha, ht]

/-- Helper: dropping the non-kept entries does not change a sum of nonnegative
amounts (the dropped entries are exactly 0). -/
theorem sum_filter_pos_of_nonneg :
    ∀ l : List ℚ, (∀ a ∈ l, 0 ≤ a) →
      (l.filter fun a => !decide (a ≤ 0)).sum = l.sum := by
  intro l
  induction l with
  | nil => intro h; simp
  | cons a rest ih =>
    intro h
    have ha := h a (by simp)
    have ht := ih fun b hb => h b (by simp [hb])
    by_cases hle : a ≤ 0
    · have : a = 0 := le_antisymm hle ha
      simp [List.filter_cons, hle, ht, this]
    · simp [List.filter_cons, hle, ht]

/-- Helper: the ledger rows appended by the distribution loop are exactly the
kept (positive-amount) pairs, in order. -/
theorem distFold_rows (sourceId : Nat) :
    ∀ (ps : List (Intended × ℚ)) (acc : List CommissionRow × (Nat → Option ℚ)),
      (ps.foldl (distStep sourceId) acc).1 =
        acc.1 ++ (ps.filter fun p => !decide (p.2 ≤ 0)).map
          fun p => ⟨p.1.uplineId, sourceId, p.1.levelFromDownline, p.2⟩ := by
  intro ps
  induction ps with
  | nil => intro acc; simp
  | cons p rest ih =>
    intro acc
    by_cases hp : p.2 ≤ 0
    · rw [List.foldl_cons]
      have hstep : distStep sourceId acc p = acc := if_pos hp
      rw [hstep, ih acc]
      simp [List.filter_cons, hp]
    · rw [List.foldl_cons]
      have hstep : distStep sourceId acc p =
          (acc.1 ++ [⟨p.1.uplineId, sourceId, p.1.levelFromDownline, p.2⟩],
            upsertWalletAdd acc.2 p.1.uplineId p.2) := if_neg hp
      rw [hstep, ih]
      simp [List.filter_cons, hp]

/-- Helper: the wallet store after the distribution loop, read at one customer:
untouched when no kept pair credits that customer, otherwise the old balance
(default 0) plus the sum of that customer's kept amounts. -/
theorem distFold_wallet (sourceId : Nat) :
    ∀ (ps : List (Intended × ℚ)) (acc : List CommissionRow × (Nat → Option ℚ))
        (c : Nat),
      (ps.foldl (distStep sourceId) acc).2 c =
        if ((ps.filter fun p => !decide (p.2 ≤ 0)).filter
              fun p => decide (p.1.uplineId = c)) = []
        then acc.2 c
        else some ((acc.2 c).getD 0 +
          (((ps.filter fun p => !decide (p.2 ≤ 0)).filter
              fun p => decide (p.1.uplineId = c)).map Prod.snd).sum) := by
  intro ps
  induction ps with
  | nil => intro acc c; simp
  | cons p rest ih =>
    intro acc c
    rw [List.foldl_cons]
    by_cases hp : p.2 ≤ 0
    · have hstep : distStep sourceId acc p = acc := if_pos hp
      have hfc : List.filter (fun p => !decide (p.2 ≤ 0)) (p :: rest) =
          List.filter (fun p => !decide (p.2 ≤ 0)) rest := by
        simp [List.filter_cons, hp]
      rw [hstep, ih acc c, hfc]
    · have hstep : distStep sourceId acc p =
          (acc.1 ++ [⟨p.1.uplineId, sourceId, p.1.levelFromDownline, p.2⟩],
            upsertWalletAdd acc.2 p.1.uplineId p.2) := if_neg hp
      have hfc : List.filter (fun p => !decide (p.2 ≤ 0)) (p :: rest) =
          p :: List.filter (fun p => !decide (p.2 ≤ 0)) rest := by
        simp [List.filter_cons, hp]
      by_cases hc : p.1.uplineId = c
      · have hacc : (distStep sourceId acc p).2 c =
            some ((acc.2 c).getD 0 + p.2) := by
          rw [hstep]
          show upsertWalletAdd acc.2 p.1.uplineId p.2 c = _
          unfold upsertWalletAdd
          rw [if_pos hc.symm, hc]
          cases acc.2 c with
          | none => simp
          | some bal => simp
        have hfc2 : List.filter (fun q => decide (q.1.uplineId = c))
            (p :: List.filter (fun p => !decide (p.2 ≤ 0)) rest) =
            p :: List.filter (fun q => decide (q.1.uplineId = c))
              (List.filter (fun p => !decide (p.2 ≤ 0)) rest) := by
          simp [List.filter_cons, hc]
        rw [ih (distStep sourceId acc p) c, hacc, hfc, hfc2]
        by_cases hr : ((rest.filter fun p => !decide (p.2 ≤ 0)).filter
            fun p => decide (p.1.uplineId = c)) = []
        · rw [if_pos hr, if_neg (by simp), hr]
          simp
        · rw [if_neg hr, if_neg (by simp)]
          simp [add_assoc]
      · have hacc : (distStep sourceId acc p).2 c = acc.2 c := by
          rw [hstep]
          show upsertWalletAdd acc.2 p.1.uplineId p.2 c = _
          unfold upsertWalletAdd
          rw [if_neg (fun e => hc e.symm)]
        have hfc2 : List.filter (fun q => decide (q.1.uplineId = c))
            (p :: List.filter (fun p => !decide (p.2 ≤ 0)) rest) =
            List.filter (fun q => decide (q.1.uplineId = c))
              (List.filter (fun p => !decide (p.2 ≤ 0)) rest) := by
          simp [List.filter_cons, hc]
        rw [ih (distStep sourceId acc p) c, hacc, hfc, hfc2]

/-- Helper: every percent placed in the `intended` array comes from the
schedule (or the `?? 0` default). -/
theorem intendedAux_pct_mem (percents : List ℚ) :
    ∀ (chain : List (Nat × Nat)) (k : Nat) (y : Intended),
      y ∈ intendedAux percents k chain → ∃ j, y.pct = percents.getD j 0 := by
  intro chain
  induction chain with
  | nil => intro k y h; simp [intendedAux] at h
  | cons u rest ih =>
    intro k y h
    rcases (by simpa [intendedAux] using h :
        y = (⟨u.1, u.2, percents.getD k 0⟩ : Intended) ∨
          y ∈ intendedAux percents (k + 1) rest) with h0 | h0
    · exact ⟨k, by rw [h0]⟩
    · exact ih (k + 1) y h0

/-- Helper: the schedule entries are nonnegative when the three level percents
are. -/
theorem percentsOf_getD_nonneg (s : MlSettings) (h1 : 0 ≤ s.level1Percent)
    (h2 : 0 ≤ s.level2Percent) (h3 : 0 ≤ s.level3Percent) (j : Nat) :
    0 ≤ (percentsOf s).getD j 0 := by
  match j with
  | 0 => simpa [percentsOf] using h1
  | 1 => simpa [percentsOf] using h2
  | 2 => simpa [percentsOf] using h3
  | n + 3 => simp [percentsOf, List.getD]

/-- Helper: with a positive gross and nonnegative settings, every post-scaling
amount is nonnegative. -/
theorem commissionAmounts_nonneg (s : MlSettings) (g : Nat → Option Nat)
    (sourceId : Nat) (gross : ℚ) (hg : 0 < gross) (h1 : 0 ≤ s.level1Percent)
    (h2 : 0 ≤ s.level2Percent) (h3 : 0 ≤ s.level3Percent)
    (hm : 0 ≤ s.maxPayoutPercent) :
    ∀ a ∈ commissionAmounts s g sourceId gross, 0 ≤ a := by
  have hraw : ∀ b ∈ rawAmounts (commissionIntended s g sourceId) gross, 0 ≤ b := by
    intro b hb
    obtain ⟨y, hy, hyb⟩ := List.mem_map.mp hb
    obtain ⟨j, hj⟩ := intendedAux_pct_mem (percentsOf s) _ 0 y hy
    rw [← hyb, hj]
    exact mul_nonneg
      (div_nonneg (percentsOf_getD_nonneg s h1 h2 h3 j) (by norm_num)) hg.le
  intro a ha
  rcases le_or_lt (rawAmounts (commissionIntended s g sourceId) gross).sum
      (commissionCap s gross) with hle | hlt
  · rw [commissionAmounts, scaleAmounts_of_le _ _ hle] at ha
    exact hraw a ha
  · rcases le_or_lt (rawAmounts (commissionIntended s g sourceId) gross).sum 0 with
      hnp | hpos
    · have hid : commissionAmounts s g sourceId gross =
          rawAmounts (commissionIntended s g sourceId) gross := by
        simp only [commissionAmounts, scaleAmounts, foldl_add_eq_sum]
        exact if_neg fun hcon => absurd hcon.2 (not_lt.mpr hnp)
      rw [hid] at ha
      exact hraw a ha
    · rw [commissionAmounts, scaleAmounts_of_gt _ _ hlt hpos] at ha
      obtain ⟨b, hb, hba⟩ := List.mem_map.mp ha
      rw [← hba]
      have hcap : 0 ≤ commissionCap s gross :=
        mul_nonneg (div_nonneg hm (by norm_num)) hg.le
      exact mul_nonneg (hraw b hb) (div_nonneg hcap hpos.le)

/-- Helper: ids read at distinct positions of a duplicate-free chain differ. -/
theorem chain_fst_ne (chain : List (Nat × Nat))
    (hnd : (chain.map Prod.fst).Nodup) {i j : Nat} {x u : Nat × Nat}
    (hne : j ≠ i) (hi : chain.get? i = some x) (hj : chain.get? j = some u) :
    u.1 ≠ x.1 := by
  intro he
  have hiM : (chain.map Prod.fst).get? i = some x.1 := by
    rw [List.get?_map, hi]
    rfl
  have hjM : (chain.map Prod.fst).get? j = some u.1 := by
    rw [List.get?_map, hj]
    rfl
  have hjL : j < (chain.map Prod.fst).length :=
    (List.get?_eq_some.mp hjM).1
  exact hne (List.get?_inj hjL hnd (by rw [hjM, hiM, he]))

/-- Helper: cap scaling never changes how many amounts there are. -/
theorem scaleAmounts_length (l : List ℚ) (cap : ℚ) :
    (scaleAmounts l cap).length = l.length := by
  simp only [scaleAmounts]
  split <;> simp

/-- C8: under the booking's positive gross and the (nonnegative) percent
settings, the distributor persists, for each resolved ancestor with a positive
post-scaling amount, exactly one ledger row and one additive wallet credit of
that amount; ancestors with non-positive amounts get no row and no credit; the
returned `created` counts exactly the credited recipients and the returned
`totalAmount` is the sum of the persisted row amounts; wallets of customers
outside the chain are untouched; and an empty upline yields no writes, a count
of 0 and no error. -/
theorem C8_distribution_writes (s : MlSettings) (g : Nat → Option Nat)
    (w0 : Nat → Option ℚ) (sourceId : Nat) (gross : ℚ) (hg : 0 < gross)
    (h1 : 0 ≤ s.level1Percent) (h2 : 0 ≤ s.level2Percent)
    (h3 : 0 ≤ s.level3Percent) (hm : 0 ≤ s.maxPayoutPercent)
    (hnd : ((commissionChain g sourceId).map Prod.fst).Nodup) :
    (∀ i x a, (commissionChain g sourceId).get? i = some x →
      (commissionAmounts s g sourceId gross).get? i = some a →
      ((0 < a →
        ((distributeCommissionForPurchase s g w0 sourceId gross).rows.filter
            fun row => decide (row.customerId = x.1)) =
          [⟨x.1, sourceId, x.2, a⟩] ∧
        (distributeCommissionForPurchase s g w0 sourceId gross).wallets x.1 =
          some ((w0 x.1).getD 0 + a)) ∧
      (a ≤ 0 →
        ((distributeCommissionForPurchase s g w0 sourceId gross).rows.filter
            fun row => decide (row.customerId = x.1)) = [] ∧
        (distributeCommissionForPurchase s g w0 sourceId gross).wallets x.1 =
          w0 x.1))) ∧
    (distributeCommissionForPurchase s g w0 sourceId gross).created =
      ((commissionAmounts s g sourceId gross).filter
        fun a => !decide (a ≤ 0)).length ∧
    (distributeCommissionForPurchase s g w0 sourceId gross).totalAmount =
      ((distributeCommissionForPurchase s g w0 sourceId gross).rows.map
        fun row => row.amount).sum ∧
    (∀ c, c ∉ (commissionChain g sourceId).map Prod.fst →
      (distributeCommissionForPurchase s g w0 sourceId gross).wallets c = w0 c) ∧
    (commissionChain g sourceId = [] →
      (distributeCommissionForPurchase s g w0 sourceId gross).rows = [] ∧
      (distributeCommissionForPurchase s g w0 sourceId gross).created = 0 ∧
      (distributeCommissionForPurchase s g w0 sourceId gross).totalAmount = 0 ∧
      ∀ c, (distributeCommissionForPurchase s g w0 sourceId gross).wallets c =
        w0 c) := by
  have hrows : (distributeCommissionForPurchase s g w0 sourceId gross).rows =
      (((commissionIntended s g sourceId).zip
          (commissionAmounts s g sourceId gross)).filter
        fun p => !decide (p.2 ≤ 0)).map
          fun p => ⟨p.1.uplineId, sourceId, p.1.levelFromDownline, p.2⟩ := by
    show ((((commissionIntended s g sourceId).zip
        (commissionAmounts s g sourceId gross)).foldl
          (distStep sourceId) ([], w0)).1) = _
    rw [distFold_rows]
    simp
  have hwall : ∀ c,
      (distributeCommissionForPurchase s g w0 sourceId gross).wallets c =
        if ((((commissionIntended s g sourceId).zip
              (commissionAmounts s g sourceId gross)).filter
            fun p => !decide (p.2 ≤ 0)).filter
              fun p => decide (p.1.uplineId = c)) = []
        then w0 c
        else some ((w0 c).getD 0 +
          (((((commissionIntended s g sourceId).zip
              (commissionAmounts s g sourceId gross)).filter
            fun p => !decide (p.2 ≤ 0)).filter
              fun p => decide (p.1.uplineId = c)).map Prod.snd).sum) := by
    intro c
    show ((((commissionIntended s g sourceId).zip
        (commissionAmounts s g sourceId gross)).foldl
          (distStep sourceId) ([], w0)).2 c) = _
    rw [distFold_wallet]
  have hcreated : (distributeCommissionForPurchase s g w0 sourceId gross).created =
      (distributeCommissionForPurchase s g w0 sourceId gross).rows.length := rfl
  have htotal : (distributeCommissionForPurchase s g w0 sourceId gross).totalAmount =
      (commissionAmounts s g sourceId gross).sum :=
    foldl_add_eq_sum _
  have hIlen : (commissionIntended s g sourceId).length =
      (commissionChain g sourceId).length := by
    simpa [commissionIntended, intendedOf] using
      intendedAux_length (percentsOf s) (commissionChain g sourceId) 0
  have hAlen : (commissionIntended s g sourceId).length =
      (commissionAmounts s g sourceId gross).length := by
    rw [commissionAmounts, scaleAmounts_length]
    simp [rawAmounts]
  have hsnd := zip_filter_snd (commissionIntended s g sourceId)
    (commissionAmounts s g sourceId gross) hAlen
  have hnn := commissionAmounts_nonneg s g sourceId gross hg h1 h2 h3 hm
  have hothers : ∀ i x, (commissionChain g sourceId).get? i = some x →
      ∀ j y b, j ≠ i → (commissionIntended s g sourceId).get? j = some y →
        (commissionAmounts s g sourceId gross).get? j = some b →
        (decide (y.uplineId = x.1) && !decide (b ≤ 0)) = false := by
    intro i x hci j y b hj hjI hjA
    rcases hcj : (commissionChain g sourceId).get? j with _ | u
    · rw [commissionIntended, intendedOf_get?, hcj] at hjI
      simp at hjI
    · rw [commissionIntended, intendedOf_get?, hcj] at hjI
      have hy : y = ⟨u.1, u.2, (percentsOf s).getD j 0⟩ := by
        simpa using hjI.symm
      have hne := chain_fst_ne (commissionChain g sourceId) hnd hj hci hcj
      simp [hy, hne]
  refine ⟨?_, ?_, ?_, ?_, ?_⟩
  · intro i x a hci hai
    have hIget : (commissionIntended s g sourceId).get? i =
        some ⟨x.1, x.2, (percentsOf s).getD i 0⟩ := by
      rw [commissionIntended, intendedOf_get?, hci]
      rfl
    constructor
    · intro hpos
      have hp : (decide ((⟨x.1, x.2, (percentsOf s).getD i 0⟩ : Intended).uplineId
          = x.1) && !decide (a ≤ 0)) = true := by
        simp [not_le.mpr hpos]
      have hfilter := zip_filter_eq_single
        (fun p => decide (p.1.uplineId = x.1) && !decide (p.2 ≤ 0)) i
        (commissionIntended s g sourceId) (commissionAmounts s g sourceId gross)
        ⟨x.1, x.2, (percentsOf s).getD i 0⟩ a hIget hai hp
        (fun j y b hj hjI hjA => hothers i x hci j y b hj hjI hjA)
      constructor
      · rw [hrows, List.filter_map, List.filter_filter]
        rw [show (fun p => ((fun row : CommissionRow =>
            decide (row.customerId = x.1)) ∘
            fun p : Intended × ℚ =>
              (⟨p.1.uplineId, sourceId, p.1.levelFromDownline, p.2⟩ :
                CommissionRow)) p && !decide (p.2 ≤ 0)) =
          fun p : Intended × ℚ =>
            decide (p.1.uplineId = x.1) && !decide (p.2 ≤ 0) from rfl]
        rw [hfilter]
        rfl
      · rw [hwall x.1, List.filter_filter]
        rw [show (fun p : Intended × ℚ =>
            decide (p.1.uplineId = x.1) && !decide (p.2 ≤ 0)) =
          fun p : Intended × ℚ =>
            decide (p.1.uplineId = x.1) && !decide (p.2 ≤ 0) from rfl]
        rw [hfilter]
        simp
    · intro hle
      have hall : ∀ j y b, (commissionIntended s g sourceId).get? j = some y →
          (commissionAmounts s g sourceId gross).get? j = some b →
          (decide (y.uplineId = x.1) && !decide (b ≤ 0)) = false := by
        intro j y b hjI hjA
        by_cases hj : j = i
        · subst hj
          rw [hIget] at hjI
          rw [hai] at hjA
          have hyy := Option.some.inj hjI
          have hbb := Option.some.inj hjA
          subst hyy
          subst hbb
          simp [hle]
        · exact hothers i x hci j y b hj hjI hjA
      have hfilter := zip_filter_eq_nil
        (fun p => decide (p.1.uplineId = x.1) && !decide (p.2 ≤ 0))
        (commissionIntended s g sourceId) (commissionAmounts s g sourceId gross)
        hall
      constructor
      · rw [hrows, List.filter_map, List.filter_filter]
        rw [show (fun p => ((fun row : CommissionRow =>
            decide (row.customerId = x.1)) ∘
            fun p : Intended × ℚ =>
              (⟨p.1.uplineId, sourceId, p.1.levelFromDownline, p.2⟩ :
                CommissionRow)) p && !decide (p.2 ≤ 0)) =
          fun p : Intended × ℚ =>
            decide (p.1.uplineId = x.1) && !decide (p.2 ≤ 0) from rfl]
        rw [hfilter]
        rfl
      · rw [hwall x.1, List.filter_filter]
        rw [hfilter]
        simp
  · rw [hcreated, hrows, List.length_map]
    have := congrArg List.length hsnd
    rw [List.length_map] at this
    rw [this]
  · rw [htotal, hrows, List.map_map]
    rw [show ((fun row : CommissionRow => row.amount) ∘
        fun p : Intended × ℚ =>
          (⟨p.1.uplineId, sourceId, p.1.levelFromDownline, p.2⟩ :
            CommissionRow)) = Prod.snd from rfl]
    rw [hsnd, sum_filter_pos_of_nonneg _ hnn]
  · intro c hc
    have hall : ∀ j y b, (commissionIntended s g sourceId).get? j = some y →
        (commissionAmounts s g sourceId gross).get? j = some b →
        (decide (y.uplineId = c) && !decide (b ≤ 0)) = false := by
      intro j y b hjI hjA
      rcases hcj : (commissionChain g sourceId).get? j with _ | u
      · rw [commissionIntended, intendedOf_get?, hcj] at hjI
        simp at hjI
      · rw [commissionIntended, intendedOf_get?, hcj] at hjI
        have hy : y = ⟨u.1, u.2, (percentsOf s).getD j 0⟩ := by
          simpa using hjI.symm
        have hmem : u.1 ∈ (commissionChain g sourceId).map Prod.fst :=
          List.mem_map_of_mem Prod.fst (List.get?_mem hcj)
        have hne : u.1 ≠ c := fun e => hc (e ▸ hmem)
        simp [hy, hne]
    have hfilter := zip_filter_eq_nil
      (fun p => decide (p.1.uplineId = c) && !decide (p.2 ≤ 0))
      (commissionIntended s g sourceId) (commissionAmounts s g sourceId gross)
      hall
    rw [hwall c, List.filter_filter, hfilter]
    simp
  · intro hempty
    have hI : commissionIntended s g sourceId = [] := by
      rw [commissionIntended, hempty]
      rfl
    have hA : commissionAmounts s g sourceId gross = [] := by
      rw [commissionAmounts, hI]
      show scaleAmounts [] _ = []
      simp only [scaleAmounts]
      split <;> simp
    refine ⟨?_, ?_, ?_, ?_⟩
    · rw [hrows, hI]
      rfl
    · rw [hcreated, hrows, hI]
      rfl
    · rw [htotal, hA]
      rfl
    · intro c
      rw [hwall c, hI]
      simp

/-- C8 exercised at the default settings, the concrete length-2 chain graph,
empty wallets and a gross amount of 100000. -/
theorem C8_distribution_writes_witness :
    (∀ i x a, (commissionChain chainGraph2 0).get? i = some x →
      (commissionAmounts defaultMlSettings chainGraph2 0 100000).get? i = some a →
      ((0 < a →
        ((distributeCommissionForPurchase defaultMlSettings chainGraph2
            (fun _ => none) 0 100000).rows.filter
            fun row => decide (row.customerId = x.1)) =
          [⟨x.1, 0, x.2, a⟩] ∧
        (distributeCommissionForPurchase defaultMlSettings chainGraph2
            (fun _ => none) 0 100000).wallets x.1 =
          some (((fun _ : Nat => (none : Option ℚ)) x.1).getD 0 + a)) ∧
      (a ≤ 0 →
        ((distributeCommissionForPurchase defaultMlSettings chainGraph2
            (fun _ => none) 0 100000).rows.filter
            fun row => decide (row.customerId = x.1)) = [] ∧
        (distributeCommissionForPurchase defaultMlSettings chainGraph2
            (fun _ => none) 0 100000).wallets x.1 =
          (fun _ : Nat => (none : Option ℚ)) x.1))) ∧
    (distributeCommissionForPurchase defaultMlSettings chainGraph2
        (fun _ => none) 0 100000).created =
      ((commissionAmounts defaultMlSettings chainGraph2 0 100000).filter
        fun a => !decide (a ≤ 0)).length ∧
    (distributeCommissionForPurchase defaultMlSettings chainGraph2
        (fun _ => none) 0 100000).totalAmount =
      ((distributeCommissionForPurchase defaultMlSettings chainGraph2
          (fun _ => none) 0 100000).rows.map fun row => row.amount).sum ∧
    (∀ c, c ∉ (commissionChain chainGraph2 0).map Prod.fst →
      (distributeCommissionForPurchase defaultMlSettings chainGraph2
          (fun _ => none) 0 100000).wallets c =
        (fun _ : Nat => (none : Option ℚ)) c) ∧
    (commissionChain chainGraph2 0 = [] →
      (distributeCommissionForPurchase defaultMlSettings chainGraph2
          (fun _ => none) 0 100000).rows = [] ∧
      (distributeCommissionForPurchase defaultMlSettings chainGraph2
          (fun _ => none) 0 100000).created = 0 ∧
      (distributeCommissionForPurchase defaultMlSettings chainGraph2
          (fun _ => none) 0 100000).totalAmount = 0 ∧
      ∀ c, (distributeCommissionForPurchase defaultMlSettings chainGraph2
          (fun _ => none) 0 100000).wallets c =
        (fun _ : Nat => (none : Option ℚ)) c) :=
  C8_distribution_writes defaultMlSettings chainGraph2 (fun _ => none) 0 100000
    (by norm_num) (by norm_num [defaultMlSettings]) (by norm_num [defaultMlSettings])
    (by norm_num [defaultMlSettings]) (by norm_num [defaultMlSettings]) (by decide)

/-- C7 counterexample: the claim says every non-finite gross amount is rejected
by both entry points, but the customer-facing guard `!gross || gross <= 0`
admits a gross amount of +Infinity (it is neither falsy nor `<= 0`), so the
request proceeds to distribution. -/
theorem C7_counterexample : customerDistributeRejects JsNum.posInf = false := rfl

/-- C7 amended: the admin-facing guard rejects exactly the non-finite or
non-positive gross amounts; the customer-facing guard rejects zero, negative,
NaN and -Infinity gross amounts but admits +Infinity. Rejection happens before
any distribution work, so a rejected request performs no state change. -/
theorem C7_amended_guards (gross : JsNum) :
    (adminDistributeRejects gross = true ↔
      gross.isFinite = false ∨ ∃ q, gross = JsNum.num q ∧ q ≤ 0) ∧
    (customerDistributeRejects gross = true ↔
      gross = JsNum.nan ∨ gross = JsNum.negInf ∨ ∃ q, gross = JsNum.num q ∧ q ≤ 0) := by
  cases gross with
  | nan => simp [adminDistributeRejects, customerDistributeRejects,
      JsNum.isFalsy, JsNum.leZero, JsNum.isFinite]
  | posInf => simp [adminDistributeRejects, customerDistributeRejects,
      JsNum.isFalsy, JsNum.leZero, JsNum.isFinite]
  | negInf => simp [adminDistributeRejects, customerDistributeRejects,
      JsNum.isFalsy, JsNum.leZero, JsNum.isFinite]
  | num q =>
    constructor
    · simp [adminDistributeRejects, JsNum.leZero, JsNum.isFinite]
    · simp only [customerDistributeRejects, JsNum.isFalsy, JsNum.leZero,
        Bool.or_eq_true, decide_eq_true_eq]
      constructor
      · rintro (h | h)
        · exact Or.inr (Or.inr ⟨q, rfl, le_of_eq h⟩)
        · exact Or.inr (Or.inr ⟨q, rfl, h⟩)
      · rintro (h | h | ⟨q', hq', hle⟩)
        · exact absurd h (by simp)
        · exact absurd h (by simp)
        · injection hq' with e
          exact Or.inr (e ▸ hle)

/-- C4 counterexample: `getUplineChain` has no revisited-node cycle guard. On the
malformed graph where customers 0 and 1 refer each other, the chain resolved for
customer 0 is `[(1,1), (0,2), (1,3)]`: ancestor 1 appears twice and the list
contains customer 0 itself, refuting the claim for this graph. -/
theorem C4_counterexample :
    ¬ ((((getUplineChain cycleGraph 0 3).map Prod.fst).Nodup ∧
        0 ∉ (getUplineChain cycleGraph 0 3).map Prod.fst)) := by
  decide

/-- Helper: the upline walk never produces more entries than it has fuel, on
every graph — cyclic ones included. -/
theorem uplineGo_length_le (g : Nat → Option Nat) :
    ∀ (fuel cur k : Nat), (uplineGo g cur k fuel).length ≤ fuel := by
  intro fuel
  induction fuel with
  | zero => intro cur k; simp [uplineGo]
  | succ n ih =>
    intro cur k
    rcases hg : g cur with _ | up
    · simp [uplineGo, hg]
    · simp only [uplineGo, hg, List.length_cons]
      exact Nat.succ_le_succ (ih up (k + 1))

/-- C4 amended: the walk stops only when a node has no referrer or when the three
allowed hops are consumed — there is no revisited-node guard. The chain never
exceeds 3 entries on any graph, cyclic ones included (the fixed hop budget is
the only termination bound); and whenever the customer together with its first
three ancestors are pairwise distinct (in particular on every acyclic graph) the
returned list contains no ancestor twice and never contains the customer; on a
cyclic graph those two guarantees can fail. -/
theorem C4_amended_no_cycle_guard (g : Nat → Option Nat) (c : Nat) :
    (getUplineChain g c 3).length ≤ 3 ∧
    ((∀ i j a b, i < j → j ≤ 3 → ancSeq g c i = some a → ancSeq g c j = some b →
        a ≠ b) →
      ((getUplineChain g c 3).map Prod.fst).Nodup ∧
        c ∉ (getUplineChain g c 3).map Prod.fst) := by
  refine ⟨uplineGo_length_le g 3 c 0, fun hd => ?_⟩
  have e0 : ancSeq g c 0 = some c := rfl
  rcases h1 : g c with _ | a1
  · simp [getUplineChain, uplineGo, h1]
  · have ha1 : ancSeq g c 1 = some a1 := by simp [ancSeq, h1]
    rcases h2 : g a1 with _ | a2
    · refine ⟨?_, ?_⟩ <;>
        simp [getUplineChain, uplineGo, h1, h2]
      exact fun e => hd 0 1 c a1 (by omega) (by omega) e0 ha1 e
    · have ha2 : ancSeq g c 2 = some a2 := by simp [ancSeq, h1, h2]
      rcases h3 : g a2 with _ | a3
      · refine ⟨?_, ?_⟩ <;>
          simp [getUplineChain, uplineGo, h1, h2, h3]
        · exact hd 1 2 a1 a2 (by omega) (by omega) ha1 ha2
        · constructor
          · exact fun e => hd 0 1 c a1 (by omega) (by omega) e0 ha1 e
          · exact fun e => hd 0 2 c a2 (by omega) (by omega) e0 ha2 e
      · have ha3 : ancSeq g c 3 = some a3 := by simp [ancSeq, h1, h2, h3]
        refine ⟨?_, ?_⟩ <;>
          simp [getUplineChain, uplineGo, h1, h2, h3]
        · refine ⟨⟨?_, ?_⟩, ?_⟩
          · exact hd 1 2 a1 a2 (by omega) (by omega) ha1 ha2
          · exact hd 1 3 a1 a3 (by omega) (by omega) ha1 ha3
          · exact hd 2 3 a2 a3 (by omega) (by omega) ha2 ha3
        · refine ⟨?_, ?_, ?_⟩
          · exact fun e => hd 0 1 c a1 (by omega) (by omega) e0 ha1 e
          · exact fun e => hd 0 2 c a2 (by omega) (by omega) e0 ha2 e
          · exact fun e => hd 0 3 c a3 (by omega) (by omega) e0 ha3 e

/-- C9: when the referrer chain of a customer has length `L`, `getUplineChain`
returns exactly `min L 3` entries, the i-th entry pairing the (i+1)-st ancestor
with depth `i + 1`, so depths run 1, 2, 3 in order; chains of length at least 3
give exactly 3 entries, length 1 gives 1 entry, and no referrer gives the empty
list. -/
theorem C9_chain_shape (g : Nat → Option Nat) (c : Nat) (L : Nat)
    (h : hasChainLen g c L) :
    (getUplineChain g c 3).length = min L 3 ∧
    ∀ i, i < min L 3 → ∃ a, ancSeq g c (i + 1) = some a ∧
      (getUplineChain g c 3).get? i = some (a, i + 1) := by
  obtain ⟨hsome, hend⟩ := h
  match L with
  | 0 =>
    have h0 : g c = none := by simpa [ancSeq] using hend
    refine ⟨by simp [getUplineChain, uplineGo, h0], fun i hi => by omega⟩
  | 1 =>
    obtain ⟨a1, h1⟩ := Option.isSome_iff_exists.mp (by simpa [ancSeq] using hsome)
    have h2 : g a1 = none := by simpa [ancSeq, h1] using hend
    refine ⟨by simp [getUplineChain, uplineGo, h1, h2], fun i hi => ?_⟩
    have : i = 0 := by omega
    subst this
    exact ⟨a1, by simp [ancSeq, h1], by simp [getUplineChain, uplineGo, h1, h2]⟩
  | 2 =>
    have hs1 : (ancSeq g c 1).isSome := ancSeq_isSome_of_le g c (by omega) hsome
    obtain ⟨a1, h1⟩ := Option.isSome_iff_exists.mp (by simpa [ancSeq] using hs1)
    obtain ⟨a2, h2'⟩ := Option.isSome_iff_exists.mp hsome
    have h2 : g a1 = some a2 := by simpa [ancSeq, h1] using h2'
    have h3 : g a2 = none := by simpa [ancSeq, h1, h2] using hend
    refine ⟨by simp [getUplineChain, uplineGo, h1, h2, h3], fun i hi => ?_⟩
    have hi2 : i < 2 := by omega
    interval_cases i
    · exact ⟨a1, by simp [ancSeq, h1], by simp [getUplineChain, uplineGo, h1, h2, h3]⟩
    · exact ⟨a2, by simp [ancSeq, h1, h2], by simp [getUplineChain, uplineGo, h1, h2, h3]⟩
  | n + 3 =>
    have hs3 : (ancSeq g c 3).isSome := ancSeq_isSome_of_le g c (by omega) hsome
    have hs2 : (ancSeq g c 2).isSome := ancSeq_isSome_of_le g c (by omega) hs3
    have hs1 : (ancSeq g c 1).isSome := ancSeq_isSome_of_le g c (by omega) hs3
    obtain ⟨a1, h1⟩ := Option.isSome_iff_exists.mp (by simpa [ancSeq] using hs1)
    obtain ⟨a2, h2'⟩ := Option.isSome_iff_exists.mp hs2
    have h2 : g a1 = some a2 := by simpa [ancSeq, h1] using h2'
    obtain ⟨a3, h3'⟩ := Option.isSome_iff_exists.mp hs3
    have h3 : g a2 = some a3 := by simpa [ancSeq, h1, h2] using h3'
    refine ⟨?_, fun i hi => ?_⟩
    · simp only [getUplineChain, uplineGo, h1, h2, h3]
      simp [Nat.min_def]
    · have hi3 : i < 3 := by omega
      interval_cases i
      · exact ⟨a1, by simp [ancSeq, h1], by simp [getUplineChain, uplineGo, h1, h2, h3]⟩
      · exact ⟨a2, by simp [ancSeq, h1, h2],
          by simp [getUplineChain, uplineGo, h1, h2, h3]⟩
      · exact ⟨a3, by simp [ancSeq, h1, h2, h3],
          by simp [getUplineChain, uplineGo, h1, h2, h3]⟩

/-- C9 exercised on the concrete length-2 chain graph: customer 0's chain has
`min 2 3 = 2` entries, pairing ancestor 1 with depth 1 and ancestor 2 with
depth 2. -/
theorem C9_chain_shape_witness :
    (getUplineChain chainGraph2 0 3).length = min 2 3 ∧
    ∀ i, i < min 2 3 → ∃ a, ancSeq chainGraph2 0 (i + 1) = some a ∧
      (getUplineChain chainGraph2 0 3).get? i = some (a, i + 1) :=
  C9_chain_shape chainGraph2 0 2 ⟨rfl, rfl⟩

/-- C4 amended claim exercised concretely: on the cyclic graph 0 ↔ 1 the chain
still has at most 3 entries, and on the length-2 acyclic chain graph the chain
for customer 0 is additionally duplicate-free and omits customer 0. -/
theorem C4_amended_witness :
    (getUplineChain cycleGraph 0 3).length ≤ 3 ∧
    (getUplineChain chainGraph2 0 3).length ≤ 3 ∧
    (((getUplineChain chainGraph2 0 3).map Prod.fst).Nodup ∧
      0 ∉ (getUplineChain chainGraph2 0 3).map Prod.fst) :=
  ⟨(C4_amended_no_cycle_guard cycleGraph 0).1,
   (C4_amended_no_cycle_guard chainGraph2 0).1,
   (C4_amended_no_cycle_guard chainGraph2 0).2 (by
    intro i j a b hij hj3 hi hj
    interval_cases j <;> interval_cases i <;> simp_all [ancSeq, chainGraph2] <;> omega)⟩

/-- Helper: positional read of `updateStepIn`. -/
theorem updateStepIn_get? (steps : List LeadStep) (stepId : Nat)
    (f : LeadStep → LeadStep) (i : Nat) :
    (updateStepIn steps stepId f).get? i =
      (steps.get? i).map fun s => if s.id = stepId then f s else s := by
  simp only [updateStepIn]
  rw [List.get?_map]

/-- C10: a successful staff-facing step completion performs no Certificate
Trigger invocation, leaves the booking's certificate fields and identity fields
unchanged, keeps every other step exactly as it was, and rewrites only the
target step's completion fields (completed, completedAt, completionNotes) —
the certificate cascade and next-step activation exist only on the
admin-facing path. -/
theorem C10_staff_frame (b : Booking) (staffId stepId : Nat) (notes : String)
    (now : Int) (b' : Booking) (calls : List CertCall)
    (hok : staffCompleteStep b staffId stepId notes now = .ok (b', calls)) :
    calls = [] ∧
    b'.certificateUrl = b.certificateUrl ∧
    b'.certificateGeneratedAt = b.certificateGeneratedAt ∧
    b'.id = b.id ∧ b'.assignedStaffId = b.assignedStaffId ∧
    b'.createdAt = b.createdAt ∧
    b'.steps.length = b.steps.length ∧
    (∀ i st, b.steps.get? i = some st → st.id ≠ stepId →
      b'.steps.get? i = some st) ∧
    (∀ i st, b.steps.get? i = some st → st.id = stepId →
      b'.steps.get? i =
        some { st with completed := true, completedAt := some now, completionNotes := some (jsTrim notes) }) := by
  simp only [staffCompleteStep] at hok
  split at hok
  · exact Except.noConfusion hok
  · split at hok
    · exact Except.noConfusion hok
    · split at hok
      · exact Except.noConfusion hok
      · split at hok
        · exact Except.noConfusion hok
        · injection hok with h
          have hb : _ = b' := congrArg Prod.fst h
          have hc : _ = calls := congrArg Prod.snd h
          simp only at hb hc
          subst hb
          subst hc
          refine ⟨rfl, rfl, rfl, rfl, rfl, rfl, ?_, ?_, ?_⟩
          · simp [updateStepIn]
          · intro i st hst hne
            simp only [updateStepIn_get?, hst]
            simp [hne]
          · intro i st hst heq
            simp only [updateStepIn_get?, hst]
            simp [heq]

/-- C10 exercised on the one-step booking: the staff completion at t = 5 issues
no certificate call, leaves the certificate and identity fields unchanged, and
rewrites only the target step's completion fields. -/
theorem C10_staff_frame_witness :
    ([] : List CertCall) = [] ∧
    bookingOneStepDone.certificateUrl = bookingOneStep.certificateUrl ∧
    bookingOneStepDone.certificateGeneratedAt =
      bookingOneStep.certificateGeneratedAt ∧
    bookingOneStepDone.id = bookingOneStep.id ∧
    bookingOneStepDone.assignedStaffId = bookingOneStep.assignedStaffId ∧
    bookingOneStepDone.createdAt = bookingOneStep.createdAt ∧
    bookingOneStepDone.steps.length = bookingOneStep.steps.length ∧
    (∀ i st, bookingOneStep.steps.get? i = some st → st.id ≠ 1 →
      bookingOneStepDone.steps.get? i = some st) ∧
    (∀ i st, bookingOneStep.steps.get? i = some st → st.id = 1 →
      bookingOneStepDone.steps.get? i =
        some { st with completed := true, completedAt := some 5, completionNotes := some (jsTrim "done") }) :=
  C10_staff_frame bookingOneStep 7 1 "done" 5 bookingOneStepDone [] rfl

/-- C5 counterexample: completing the only materialized step of a one-step
booking through the staff route sets the percent to 100, not to
`min(round(1/12*100), 100) = 8` — the staff path divides by the materialized
step count, not by the fixed template size 12. -/
theorem C5_counterexample :
    staffCompleteStep bookingOneStep 7 1 "done" 5 =
      .ok (bookingOneStepDone, []) ∧
    bookingOneStepDone.percent = 100 ∧
    min (jsRound ((1 : ℚ) / 12 * 100)) 100 = 8 ∧ (100 : Int) ≠ 8 := by
  refine ⟨rfl, ?_, ?_, by decide⟩
  · show jsRound (((1 : Nat) : ℚ) / ((1 : Nat) : ℚ) * 100) = 100
    rw [jsRound]
    norm_num [Int.floor_eq_iff]
  · rw [jsRound]
    norm_num [Int.floor_eq_iff]

/-- C5 amended: the staff-facing completion recomputes percent as
`round(completedCount / materializedStepCount * 100)` with the number of steps
materialized so far as the denominator; the admin-facing step completion never
recomputes percent at all; only the admin lead-detail read's self-heal uses the
fixed template size 12 with a clamp to 100, and its value depends only on the
completed-step count. -/
theorem C5_amended_percent :
    (∀ b staffId stepId notes now b' calls,
      staffCompleteStep b staffId stepId notes now = .ok (b', calls) →
      b'.percent = jsRound (((b'.steps.filter fun s => s.completed).length : ℚ) /
        (b'.steps.length : ℚ) * 100)) ∧
    (∀ b stepId flag now certOutcome b' calls,
      adminPatchStep b stepId flag now certOutcome = .ok (b', calls) →
      b'.percent = b.percent) ∧
    (∀ steps1 steps2 : List LeadStep,
      (steps1.filter fun s => s.completed).length =
        (steps2.filter fun s => s.completed).length →
      selfHealPercent steps1 = selfHealPercent steps2) := by
  refine ⟨?_, ?_, ?_⟩
  · intro b staffId stepId notes now b' calls hok
    simp only [staffCompleteStep] at hok
    split at hok
    · exact Except.noConfusion hok
    · split at hok
      · exact Except.noConfusion hok
      · split at hok
        · exact Except.noConfusion hok
        · split at hok
          · exact Except.noConfusion hok
          · injection hok with h
            have hb : _ = b' := congrArg Prod.fst h
            subst hb
            rfl
  · intro b stepId flag now certOutcome b' calls hok
    simp only [adminPatchStep] at hok
    split at hok
    · exact Except.noConfusion hok
    · split at hok
      all_goals try split at hok
      all_goals try split at hok
      all_goals try split at hok
      all_goals try split at hok
      all_goals try split at hok
      all_goals first
        | exact Except.noConfusion hok
        | (injection hok with h
           have hb : _ = b' := congrArg Prod.fst h
           subst hb
           simp)
  · intro steps1 steps2 h
    simp only [selfHealPercent]
    rw [h]

/-- C5 amended claim exercised: the one-step staff completion's percent equals
the materialized-count formula; the admin re-completion of `bookingDone` leaves
its percent at 8; and the self-heal value of the one-step list matches itself. -/
theorem C5_amended_percent_witness :
    bookingOneStepDone.percent =
      jsRound (((bookingOneStepDone.steps.filter fun s => s.completed).length : ℚ) /
        (bookingOneStepDone.steps.length : ℚ) * 100) ∧
    bookingDoneRepatched.percent = bookingDone.percent ∧
    selfHealPercent [stepMeeting] = selfHealPercent [stepMeeting, stepMeeting] :=
  ⟨C5_amended_percent.1 bookingOneStep 7 1 "done" 5 bookingOneStepDone [] rfl,
   C5_amended_percent.2.1 bookingDone 1 true 200 none bookingDoneRepatched [] rfl,
   C5_amended_percent.2.2 [stepMeeting] [stepMeeting, stepMeeting] (by decide)⟩

/-- Helper: an update keyed to the target id that completes every matching step
at `now` establishes the completion invariant for the target id. -/
theorem inv_base (l : List LeadStep) (tid : Nat) (now : Int)
    (f : LeadStep → LeadStep)
    (hf : ∀ s, (f s).id = s.id ∧ (f s).completed = true ∧
      (f s).completedAt = some now) :
    ∀ s ∈ updateStepIn l tid f, s.id = tid →
      s.completed = true ∧ s.completedAt = some now := by
  intro s hs hid
  simp only [updateStepIn, List.mem_map] at hs
  obtain ⟨s0, hs0, heq⟩ := hs
  by_cases h : s0.id = tid
  · rw [if_pos h] at heq
    subst heq
    exact ⟨(hf s0).2.1, (hf s0).2.2⟩
  · rw [if_neg h] at heq
    subst heq
    exact absurd hid h

/-- Helper: an update that preserves ids and either leaves the completion
fields alone or sets them to completed-at-`now` preserves the completion
invariant for the target id. -/
theorem inv_step (l : List LeadStep) (uid tid : Nat) (now : Int)
    (f : LeadStep → LeadStep)
    (hf : ∀ s, (f s).id = s.id ∧
      ((f s).completed = s.completed ∧ (f s).completedAt = s.completedAt ∨
       (f s).completed = true ∧ (f s).completedAt = some now))
    (hall : ∀ s ∈ l, s.id = tid → s.completed = true ∧ s.completedAt = some now) :
    ∀ s ∈ updateStepIn l uid f, s.id = tid →
      s.completed = true ∧ s.completedAt = some now := by
  intro s hs hid
  simp only [updateStepIn, List.mem_map] at hs
  obtain ⟨s0, hs0, heq⟩ := hs
  by_cases h : s0.id = uid
  · rw [if_pos h] at heq
    subst heq
    rcases (hf s0).2 with ⟨hc, ha⟩ | ⟨hc, ha⟩
    · have h0 := hall s0 hs0 (by rw [← (hf s0).1]; exact hid)
      exact ⟨hc.trans h0.1, ha.trans h0.2⟩
    · exact ⟨hc, ha⟩
  · rw [if_neg h] at heq
    subst heq
    exact hall s0 hs0 hid

/-- Helper: a successful admin completion leaves every step carrying the target
id completed at the new time, whatever cascade branch was taken. -/
theorem adminPatchStep_target_state (b : Booking) (stepId : Nat) (now : Int)
    (certOutcome : Option String) (b' : Booking) (calls : List CertCall)
    (hok : adminPatchStep b stepId true now certOutcome = .ok (b', calls)) :
    ∀ s ∈ b'.steps, s.id = stepId →
      s.completed = true ∧ s.completedAt = some now := by
  simp only [adminPatchStep] at hok
  split at hok
  · exact Except.noConfusion hok
  · split at hok
    all_goals try split at hok
    all_goals try split at hok
    all_goals try split at hok
    all_goals try split at hok
    all_goals try split at hok
    all_goals first
      | exact Except.noConfusion hok
      | exact absurd trivial ‹¬True›
      | (injection hok with h
         have hb : _ = b' := congrArg Prod.fst h
         subst hb
         first
          | exact inv_base _ _ now _ (fun s => ⟨rfl, rfl, by simp⟩)
          | exact inv_step _ _ _ now _
              (fun s => ⟨rfl, Or.inl ⟨rfl, rfl⟩⟩)
              (inv_base _ _ now _ (fun s => ⟨rfl, rfl, by simp⟩))
          | exact inv_step _ _ _ now _
              (fun s => ⟨rfl, Or.inr ⟨rfl, rfl⟩⟩)
              (inv_base _ _ now _ (fun s => ⟨rfl, rfl, by simp⟩))
          | exact inv_step _ _ _ now _
              (fun s => ⟨rfl, Or.inr ⟨rfl, rfl⟩⟩)
              (inv_step _ _ _ now _
                (fun s => ⟨rfl, Or.inl ⟨rfl, rfl⟩⟩)
                (inv_base _ _ now _ (fun s => ⟨rfl, rfl, by simp⟩))))

/-- Helper: `all` is pointwise. -/
theorem all_congr_steps (l : List LeadStep) (p q : LeadStep → Bool)
    (h : ∀ s ∈ l, p s = q s) : l.all p = l.all q := by
  induction l with
  | nil => rfl
  | cons s rest ih =>
    simp only [List.all_cons, h s (by simp)]
    rw [ih fun t ht => h t (by simp [ht])]

/-- Helper: a name-preserving per-id update commutes with the non-certificate
filter. -/
theorem nonCertOf_updateStepIn (steps1 : List LeadStep) (nid : Nat)
    (f : LeadStep → LeadStep) (hname : ∀ s, (f s).name = s.name) :
    nonCertOf (updateStepIn steps1 nid f) =
      (nonCertOf steps1).map fun s => if s.id = nid then f s else s := by
  simp only [nonCertOf, updateStepIn]
  rw [List.filter_map]
  congr 1
  apply List.filter_congr
  intro s _
  by_cases h : s.id = nid <;> simp [h, hname s]

/-- Helper: the next-step activation (a dueDays-only update) changes none of
the quantities the certificate cascade reads off the non-certificate steps. -/
theorem activation_invariance (steps1 : List LeadStep) (nid : Nat) :
    (nonCertOf (updateStepIn steps1 nid fun s => { s with dueDays := 1 })).length =
      (nonCertOf steps1).length ∧
    (nonCertOf (updateStepIn steps1 nid fun s => { s with dueDays := 1 })).all
        (fun s => s.completed) =
      (nonCertOf steps1).all (fun s => s.completed) ∧
    latestCompletedAt
        (nonCertOf (updateStepIn steps1 nid fun s => { s with dueDays := 1 })) =
      latestCompletedAt (nonCertOf steps1) := by
  have he := nonCertOf_updateStepIn steps1 nid
    (fun s => { s with dueDays := 1 }) (fun s => rfl)
  refine ⟨?_, ?_, ?_⟩
  · rw [he, List.length_map]
  · rw [he, List.all_map]
    apply all_congr_steps
    intro s _
    by_cases h : s.id = nid <;> simp [h]
  · rw [he, latestCompletedAt, latestCompletedAt, List.filterMap_map]
    congr 1
    apply List.filterMap_congr
    intro s _
    by_cases h : s.id = nid <;> simp [h]

/-- Helper: the admin handler with `completedFlag = true` is the composition of
the mark-completed update, the next-step activation and the certificate
cascade. -/
theorem adminPatchStep_true_eq (b : Booking) (stepId : Nat) (now : Int)
    (certOutcome : Option String) :
    adminPatchStep b stepId true now certOutcome =
      match b.steps.find? (fun s => s.id = stepId) with
      | none => .error .stepNotFound
      | some _ =>
        .ok (adminCascade
          (adminActivateNext { b with steps := markCompleted b.steps stepId now }
            stepId) now certOutcome) := by
  unfold adminPatchStep
  rcases hf : b.steps.find? (fun s => s.id = stepId) with _ | step <;> rw [hf]
  simp only [adminCascade, adminActivateNext, markCompleted, eq_self_iff_true,
    if_true]
  split
  next hcond =>
    rcases certOutcome with _ | url <;> rfl
  next hcond =>
    rfl

/-- Helper: the activation stage does not touch the certificate field. -/
theorem adminActivateNext_certificateUrl (b1 : Booking) (stepId : Nat) :
    (adminActivateNext b1 stepId).certificateUrl = b1.certificateUrl := by
  simp only [adminActivateNext]
  split <;> rfl

/-- Helper: the activation stage changes none of the quantities the cascade
reads. -/
theorem adminActivateNext_invariance (b1 : Booking) (stepId : Nat) :
    (nonCertOf (adminActivateNext b1 stepId).steps).length =
      (nonCertOf b1.steps).length ∧
    (nonCertOf (adminActivateNext b1 stepId).steps).all (fun s => s.completed) =
      (nonCertOf b1.steps).all (fun s => s.completed) ∧
    latestCompletedAt (nonCertOf (adminActivateNext b1 stepId).steps) =
      latestCompletedAt (nonCertOf b1.steps) := by
  simp only [adminActivateNext]
  split
  · next nxt hnxt => exact activation_invariance b1.steps nxt.id
  · exact ⟨rfl, rfl, rfl⟩

/-- Helper: completing the certificate step in place is visible through the
name-keyed lookup. -/
theorem certStep_after_update (l : List LeadStep) (cs : LeadStep) (now : Int)
    (hcs : l.find? (fun s => s.name = "certificate") = some cs) :
    (updateStepIn l cs.id fun s =>
        { s with completed := true, completedAt := some now }).find?
      (fun s => s.name = "certificate") =
      some { cs with completed := true, completedAt := some now } := by
  simp only [updateStepIn]
  rw [List.find?_map]
  have hp : ((fun s : LeadStep => decide (s.name = "certificate")) ∘ fun s =>
      if s.id = cs.id then { s with completed := true, completedAt := some now }
      else s) = fun s : LeadStep => decide (s.name = "certificate") := by
    funext s
    by_cases h : s.id = cs.id <;> simp [h]
  rw [hp, hcs]
  simp

/-- Helper: behavior of the cascade stage: with every non-certificate step
complete and no certificate on file it invokes the trigger exactly once with
the latest completion time (or now), records the handle and completes the
certificate step on success, and leaves the state untouched on failure; with a
certificate already on file it performs no invocation. -/
theorem adminCascade_spec (b2 : Booking) (now : Int) (certOutcome : Option String) :
    (0 < (nonCertOf b2.steps).length →
      (nonCertOf b2.steps).all (fun s => s.completed) = true →
      b2.certificateUrl = none →
      (adminCascade b2 now certOutcome).2 =
        [⟨(latestCompletedAt (nonCertOf b2.steps)).getD now⟩] ∧
      (∀ url, certOutcome = some url →
        (adminCascade b2 now certOutcome).1.certificateUrl = some url ∧
        ∀ cs, (adminCascade b2 now certOutcome).1.steps.find?
            (fun s => s.name = "certificate") = some cs → cs.completed = true) ∧
      (certOutcome = none → (adminCascade b2 now certOutcome).1 = b2)) ∧
    (b2.certificateUrl.isSome → (adminCascade b2 now certOutcome).2 = []) := by
  constructor
  · intro h1 h2 h3
    have hcond : 0 < (nonCertOf b2.steps).length ∧
        ((nonCertOf b2.steps).all fun s => s.completed) = true ∧
        b2.certificateUrl = none := ⟨h1, h2, h3⟩
    rcases certOutcome with _ | url
    · refine ⟨?_, ?_, ?_⟩
      · simp only [adminCascade, if_pos hcond]
      · intro url hurl
        exact absurd hurl (by simp)
      · intro _
        simp only [adminCascade, if_pos hcond]
    · refine ⟨?_, ?_, ?_⟩
      · simp only [adminCascade, if_pos hcond]
      · intro url' hurl
        have hu : url = url' := by injection hurl
        subst hu
        constructor
        · simp only [adminCascade, if_pos hcond]
          split
          · next cs hcs =>
            split
            · rfl
            · rfl
          · rfl
        · intro cs hcs
          revert hcs
          simp only [adminCascade, if_pos hcond]
          split
          · next cs0 hcs0 =>
            split
            · next hdone =>
              intro hcs
              have : cs0 = cs := by
                have := hcs0.symm.trans hcs
                exact Option.some.inj this
              rw [← this]
              exact hdone
            · next hnotdone =>
              intro hcs
              have hfind := certStep_after_update b2.steps cs0 now hcs0
              have : ({ cs0 with completed := true, completedAt := some now } :
                  LeadStep) = cs := Option.some.inj (hfind.symm.trans hcs)
              rw [← this]
          · next hnone =>
            intro hcs
            rw [hnone] at hcs
            exact Option.noConfusion hcs
      · intro hnone
        exact absurd hnone (by simp)
  · intro hsome
    have hcond : ¬ (0 < (nonCertOf b2.steps).length ∧
        ((nonCertOf b2.steps).all fun s => s.completed) = true ∧
        b2.certificateUrl = none) := by
      rintro ⟨-, -, hn⟩
      rw [hn] at hsome
      exact Option.noConfusion (Option.isSome_iff_exists.mp hsome).choose_spec
    simp only [adminCascade, if_neg hcond]

/-- C2: on a successful admin completion, when every non-certificate step of the
post-completion list is completed and the booking has no certificate, the
Certificate Trigger is invoked exactly once, with the latest `completedAt`
among those steps (or the current time when none has one) as the install date;
on success the returned document handle is recorded as the booking's
`certificateUrl` and the dedicated certificate step is marked completed; on
failure the step completion stands (the target step stays completed, every
non-certificate step remains completed, and the booking simply remains without
a certificate); and once `certificateUrl` is set no further issuance is
triggered. -/
theorem C2_certificate_cascade (b : Booking) (stepId : Nat) (now : Int)
    (certOutcome : Option String) (b' : Booking) (calls : List CertCall)
    (hok : adminPatchStep b stepId true now certOutcome = .ok (b', calls)) :
    (0 < (nonCertOf (markCompleted b.steps stepId now)).length →
      (nonCertOf (markCompleted b.steps stepId now)).all
        (fun s => s.completed) = true →
      b.certificateUrl = none →
      calls = [⟨(latestCompletedAt
        (nonCertOf (markCompleted b.steps stepId now))).getD now⟩] ∧
      (∀ url, certOutcome = some url →
        b'.certificateUrl = some url ∧
        ∀ cs, b'.steps.find? (fun s => s.name = "certificate") = some cs →
          cs.completed = true) ∧
      (certOutcome = none →
        b'.certificateUrl = none ∧
        (∀ s ∈ b'.steps, s.name ≠ "certificate" → s.completed = true) ∧
        (∀ s ∈ b'.steps, s.id = stepId → s.completed = true))) ∧
    (b.certificateUrl.isSome → calls = []) := by
  have htarget := adminPatchStep_target_state b stepId now certOutcome b' calls hok
  rw [adminPatchStep_true_eq] at hok
  rcases hf : b.steps.find? (fun s => s.id = stepId) with _ | step
  · rw [hf] at hok
    exact Except.noConfusion hok
  rw [hf] at hok
  injection hok with h
  rw [Prod.ext_iff] at h
  obtain ⟨hfst0, hsnd0⟩ := h
  have hfst : _ = b' := hfst0
  have hsnd : _ = calls := hsnd0
  have hinv := adminActivateNext_invariance
    { b with steps := markCompleted b.steps stepId now } stepId
  have hcu : (adminActivateNext
      { b with steps := markCompleted b.steps stepId now } stepId).certificateUrl =
      b.certificateUrl :=
    adminActivateNext_certificateUrl _ _
  have hspec := adminCascade_spec
    (adminActivateNext { b with steps := markCompleted b.steps stepId now } stepId)
    now certOutcome
  constructor
  · intro h1 h2 h3
    have h1' : 0 < (nonCertOf (adminActivateNext
        { b with steps := markCompleted b.steps stepId now } stepId).steps).length := by
      rw [hinv.1]
      exact h1
    have h2' : (nonCertOf (adminActivateNext
        { b with steps := markCompleted b.steps stepId now } stepId).steps).all
        (fun s => s.completed) = true := by
      rw [hinv.2.1]
      exact h2
    have h3' : (adminActivateNext
        { b with steps := markCompleted b.steps stepId now } stepId).certificateUrl =
        none := by
      rw [hcu]
      exact h3
    obtain ⟨hA, hB, hC⟩ := hspec.1 h1' h2' h3'
    refine ⟨?_, ?_, ?_⟩
    · rw [← hsnd, hA, hinv.2.2]
    · intro url hurl
      obtain ⟨hcu2, hcert⟩ := hB url hurl
      constructor
      · rw [← hfst]
        exact hcu2
      · intro cs hcs
        refine hcert cs ?_
        rw [hfst]
        exact hcs
    · intro hnone
      have hb'b2 : b' = adminActivateNext
          { b with steps := markCompleted b.steps stepId now } stepId := by
        rw [← hfst, hC hnone]
      refine ⟨?_, ?_, ?_⟩
      · rw [hb'b2]
        exact h3'
      · intro s hs hncert
        have hs2 : s ∈ (adminActivateNext
            { b with steps := markCompleted b.steps stepId now } stepId).steps := by
          rw [← hb'b2]
          exact hs
        have hmem : s ∈ nonCertOf (adminActivateNext
            { b with steps := markCompleted b.steps stepId now } stepId).steps :=
          List.mem_filter.mpr ⟨hs2, by simp [hncert]⟩
        exact List.all_eq_true.mp h2' s hmem
      · intro s hs hsid
        exact (htarget s hs hsid).1
  · intro hsome
    rw [← hsnd]
    apply hspec.2
    rw [hcu]
    exact hsome

/-- C2 exercised on the two-step booking: completing the last substantive step
at t = 200 with a successful trigger issues exactly one certificate call with
install date 200, records the handle, and completes the certificate step. -/
theorem C2_certificate_cascade_witness :
    (0 < (nonCertOf (markCompleted bookingAlmostDone.steps 1 200)).length →
      (nonCertOf (markCompleted bookingAlmostDone.steps 1 200)).all
        (fun s => s.completed) = true →
      bookingAlmostDone.certificateUrl = none →
      ([⟨200⟩] : List CertCall) = [⟨(latestCompletedAt
        (nonCertOf (markCompleted bookingAlmostDone.steps 1 200))).getD 200⟩] ∧
      (∀ url, some "url" = some url →
        bookingCertified.certificateUrl = some url ∧
        ∀ cs, bookingCertified.steps.find? (fun s => s.name = "certificate") =
            some cs → cs.completed = true) ∧
      (some "url" = none →
        bookingCertified.certificateUrl = none ∧
        (∀ s ∈ bookingCertified.steps, s.name ≠ "certificate" →
          s.completed = true) ∧
        (∀ s ∈ bookingCertified.steps, s.id = 1 → s.completed = true))) ∧
    (bookingAlmostDone.certificateUrl.isSome → ([⟨200⟩] : List CertCall) = []) :=
  C2_certificate_cascade bookingAlmostDone 1 200 (some "url") bookingCertified
    [⟨200⟩] rfl

/-- C6 counterexample: the admin-facing completion of an already-completed step
does not fail with AlreadyCompleted — it succeeds and overwrites the step's
`completedAt` (set to 100 by the first completion) with the new time 200. -/
theorem C6_counterexample :
    adminPatchStep bookingDone 1 true 200 none =
      .ok (bookingDoneRepatched, []) ∧
    bookingDone.steps.find? (fun s => s.id = 1) = some stepMeetingDone ∧
    stepMeetingDone.completed = true ∧
    stepMeetingDone.completedAt = some 100 ∧
    bookingDoneRepatched.steps.find? (fun s => s.id = 1) =
      some stepMeetingRedone ∧
    stepMeetingRedone.completedAt = some 200 ∧
    some (200 : Int) ≠ some (100 : Int) :=
  ⟨rfl, rfl, rfl, rfl, rfl, rfl, by decide⟩

/-- C6 amended: the staff-facing completion of an already-completed step fails
with AlreadyCompleted (given nonempty notes and an assigned staff member) and,
being rejected before any write, performs no state change; the admin-facing
completion performs no already-completed check: it succeeds and every step
carrying the target id ends completed with `completedAt` overwritten to the new
completion time. -/
theorem C6_amended_already_completed :
    (∀ b staffId stepId notes now step,
      jsTrim notes ≠ "" →
      b.steps.find? (fun s => s.id = stepId) = some step →
      b.assignedStaffId = some staffId →
      step.completed = true →
      staffCompleteStep b staffId stepId notes now = .error .alreadyCompleted) ∧
    (∀ b stepId now certOutcome b' calls,
      adminPatchStep b stepId true now certOutcome = .ok (b', calls) →
      ∀ s ∈ b'.steps, s.id = stepId →
        s.completed = true ∧ s.completedAt = some now) := by
  constructor
  · intro b staffId stepId notes now step hnotes hfind hassigned hcompleted
    simp only [staffCompleteStep, hfind, if_neg hnotes]
    rw [if_neg (by simp [hassigned])]
    rw [if_pos hcompleted]
  · intro b stepId now certOutcome b' calls hok
    exact adminPatchStep_target_state b stepId now certOutcome b' calls hok

/-- C6 amended claim exercised on the completed one-step booking: a staff
re-completion is rejected with AlreadyCompleted, and the admin re-completion at
t = 200 leaves the step completed with the overwritten timestamp. -/
theorem C6_amended_witness :
    staffCompleteStep bookingDone 7 1 "x" 300 = .error .alreadyCompleted ∧
    (∀ s ∈ bookingDoneRepatched.steps, s.id = 1 →
      s.completed = true ∧ s.completedAt = some 200) :=
  ⟨C6_amended_already_completed.1 bookingDone 7 1 "x" 300 stepMeetingDone
      (by decide) rfl rfl rfl,
   C6_amended_already_completed.2 bookingDone 1 200 none bookingDoneRepatched []
      rfl⟩

end Klord
